import Mathlib

/-! Orchestration core of the operator (src/main.go).

Shallow embedding of the task runner (`TasksRunner`), the composition rules
(`CreateOnStartupTasks`, `CreateReloadAllTasks`) and the startup part of `Run`.

The `task` and `module_manager` packages are not part of the sources at hand.
The task record and the queue operations are modelled from the specification
(sections 3, 4.1 and 4.2); the module manager is a parameter.
-/

namespace Operator

/-! ## Durations and the delay constants (main.go, lines 39-43) -/

/-- Go `time.Duration`: a signed count of nanoseconds. -/
abbrev Duration := Int

/-- Go `time.Second`. -/
def Second : Duration := 1000000000

def QueueIsEmptyDelay : Duration := 3 * Second

def FailedHookDelay : Duration := 5 * Second

def FailedModuleDelay : Duration := 5 * Second

/-! ## Tasks -/

/-- Modelled from the spec: the task kinds of `task.TaskType` (section 3, field `kind`). -/
inductive TaskType where
  | ModuleDelete
  | ModuleRun
  | ModuleHookRun
  | GlobalHookRun
  | Delay
  deriving DecidableEq, Repr

/-- Modelled from the spec: the bindings of `module_manager.BindingType`
(section 3, field `binding`). -/
inductive BindingType where
  | OnStartup
  | BeforeAll
  | AfterAll
  | OnKubeNodeChange
  | Schedule
  | KubeEvents
  deriving DecidableEq, Repr

/-- Modelled from the spec: the record `task.Task` (section 3): a shared envelope
(kind, name, binding, allow-failure, failure counter) plus the duration payload that only
a `Delay` task uses.  The field `Kind` is the Go field `Type`. -/
structure Task where
  Kind : TaskType
  Name : String
  Binding : Option BindingType
  AllowFailure : Bool
  FailureCount : Int
  Delay : Duration
  deriving DecidableEq, Repr

/-- Modelled from the spec: `task.NewTask(kind, name)`, construction by kind and name
(section 4.1); nothing else is set. -/
def NewTask (kind : TaskType) (name : String) : Task :=
  { Kind := kind, Name := name, Binding := none, AllowFailure := false,
    FailureCount := 0, Delay := 0 }

/-- Modelled from the spec: the modifier `WithBinding` (section 4.1). -/
def Task.WithBinding (t : Task) (binding : BindingType) : Task :=
  { t with Binding := some binding }

/-- Modelled from the spec: the modifier `WithAllowFailure` (section 4.1). -/
def Task.WithAllowFailure (t : Task) (allowFailure : Bool) : Task :=
  { t with AllowFailure := allowFailure }

/-- Modelled from the spec: `IncrementFailureCount` adds one to the counter of its
receiver (section 3, field `failureCount`). -/
def Task.IncrementFailureCount (t : Task) : Task :=
  { t with FailureCount := t.FailureCount + 1 }

/-- Modelled from the spec: `task.NewTaskDelay(d)`, the variant that carries only a
duration: no name, no binding (section 3 and 4.1). -/
def NewTaskDelay (delay : Duration) : Task :=
  { Kind := TaskType.Delay, Name := "", Binding := none, AllowFailure := false,
    FailureCount := 0, Delay := delay }

/-! ## The queue -/

/-- The mutating operations of the queue, recorded in `TasksQueue.trace`. -/
inductive QueueOp where
  | Add (t : Task)
  | Push (t : Task)
  | Pop
  | ChangesDisable
  | ChangesEnable (fireOnce : Bool)
  deriving DecidableEq, Repr

/-- Modelled from the spec: `task.TasksQueue` (section 3 and 4.2): the ordered sequence of
tasks (head first) and the changes-enabled flag.  `trace` is a ghost field: the mutating
operations invoked so far, oldest first. -/
structure TasksQueue where
  items : List Task
  changesEnabled : Bool
  trace : List QueueOp
  deriving DecidableEq, Repr

/-- Modelled from the spec: `task.NewTasksQueue()`, the empty queue. -/
def NewTasksQueue : TasksQueue :=
  { items := [], changesEnabled := true, trace := [] }

/-- Modelled from the spec: `Add(t)` appends at the tail (section 4.2). -/
def TasksQueue.Add (q : TasksQueue) (t : Task) : TasksQueue :=
  { q with items := q.items ++ [t], trace := q.trace ++ [QueueOp.Add t] }

/-- Modelled from the spec: `Push(t)` prepends at the head (section 4.2). -/
def TasksQueue.Push (q : TasksQueue) (t : Task) : TasksQueue :=
  { q with items := t :: q.items, trace := q.trace ++ [QueueOp.Push t] }

/-- Modelled from the spec: `Peek()` returns the head without removing it, and the
distinguished empty result on an empty queue (section 4.2). -/
def TasksQueue.Peek (q : TasksQueue) : Option Task :=
  q.items.head?

/-- Modelled from the spec: `Pop()` removes and returns the head (section 4.2). -/
def TasksQueue.Pop (q : TasksQueue) : Option Task × TasksQueue :=
  (q.items.head?, { q with items := q.items.tail, trace := q.trace ++ [QueueOp.Pop] })

/-- Modelled from the spec: `IsEmpty()` (section 4.2). -/
def TasksQueue.IsEmpty (q : TasksQueue) : Bool :=
  q.items.isEmpty

/-- Modelled from the spec: `ChangesDisable()` closes the notification gate (section 4.2). -/
def TasksQueue.ChangesDisable (q : TasksQueue) : TasksQueue :=
  { q with changesEnabled := false, trace := q.trace ++ [QueueOp.ChangesDisable] }

/-- Modelled from the spec: `ChangesEnable(fireOnce)` opens the notification gate
(section 4.2). -/
def TasksQueue.ChangesEnable (q : TasksQueue) (fireOnce : Bool) : TasksQueue :=
  { q with changesEnabled := true, trace := q.trace ++ [QueueOp.ChangesEnable fireOnce] }

/-! ## The module manager, as seen from main.go -/

/-- The calls `TasksRunner` makes to the module manager. -/
inductive MMCall where
  | RunModule (name : String)
  | DeleteModule (name : String)
  | RunModuleHook (name : String) (binding : Option BindingType)
  | RunGlobalHook (name : String) (binding : Option BindingType)
  deriving DecidableEq, Repr

/-- The executing side of the module manager, a parameter of the runner: given the calls
made before (oldest first) and the present call, `true` means the call returns a non-nil
error. -/
abbrev Collaborator := List MMCall → MMCall → Bool

/-- The query side of the module manager, a parameter of the builders.
`GetGlobalHooksInOrder b` is the pair the Go function returns: the hook names and whether
the error is non-nil.  `GetGlobalHook n` and `GetModuleHook n` are `true` when the lookup
returns a nil error. -/
structure ModuleManager where
  GetGlobalHooksInOrder : BindingType → List String × Bool
  GetModuleNamesInOrder : List String
  GetGlobalHook : String → Bool
  GetModuleHook : String → Bool

/-! ## TasksRunner (main.go, lines 257-318) -/

/-- One `rlog.Debugf` line of a failed dispatch: kind, name and the failure count it
prints. -/
structure FailureLog where
  Kind : TaskType
  Name : String
  FailureCount : Int
  deriving DecidableEq, Repr

/-- State threaded through the runner: the queue, the collaborator calls made so far,
the durations slept so far and the failure lines logged so far (all oldest first). -/
structure RunnerState where
  queue : TasksQueue
  calls : List MMCall
  slept : List Duration
  logged : List FailureLog
  deriving DecidableEq, Repr

/-- The failure branch shared by the four dispatch cases (lines 273-275, 282-284,
291-293, 300-302).  `t` is the local variable bound by `t, ok := headTask.(task.Task)`:
a copy of the queued value, so `t.IncrementFailureCount()` changes the copy, the debug
line prints the copy's counter, and the queue only receives the pushed delay. -/
def failBranch (s : RunnerState) (t : Task) (delay : Duration) : RunnerState :=
  let t1 := t.IncrementFailureCount
  { s with
    logged := s.logged ++ [{ Kind := t1.Kind, Name := t1.Name, FailureCount := t1.FailureCount }],
    queue := s.queue.Push (NewTaskDelay delay) }

/-- The success branch of the dispatch cases: `TasksQueue.Pop()`. -/
def popBranch (s : RunnerState) : RunnerState :=
  { s with queue := s.queue.Pop.2 }

/-- The collaborator call made for the head task `t`, if its kind has one. -/
def callOf (t : Task) : Option MMCall :=
  match t.Kind with
  | TaskType.ModuleRun => some (MMCall.RunModule t.Name)
  | TaskType.ModuleDelete => some (MMCall.DeleteModule t.Name)
  | TaskType.ModuleHookRun => some (MMCall.RunModuleHook t.Name t.Binding)
  | TaskType.GlobalHookRun => some (MMCall.RunGlobalHook t.Name t.Binding)
  | TaskType.Delay => none

/-- The body of the inner loop of `TasksRunner` (lines 264-311): peek the head and
dispatch on its kind.  On an empty queue `Peek` yields nil and the loop breaks: the state
is returned unchanged.  The runtime type checks `headTask.(task.Task)` (line 268) and
`headTask.(task.TaskDelay)` (line 307) depend on the `task` package; following section 9
of the specification every queued item passes them, a `Delay` item giving its duration. -/
def TasksRunnerStep (mm : Collaborator) (s : RunnerState) : RunnerState :=
  match s.queue.Peek with
  | none => s
  | some t =>
    match t.Kind with
    | TaskType.ModuleRun =>
      let err := mm s.calls (MMCall.RunModule t.Name)
      let s1 := { s with calls := s.calls ++ [MMCall.RunModule t.Name] }
      if err then failBranch s1 t FailedModuleDelay else popBranch s1
    | TaskType.ModuleDelete =>
      let err := mm s.calls (MMCall.DeleteModule t.Name)
      let s1 := { s with calls := s.calls ++ [MMCall.DeleteModule t.Name] }
      if err then failBranch s1 t FailedModuleDelay else popBranch s1
    | TaskType.ModuleHookRun =>
      let err := mm s.calls (MMCall.RunModuleHook t.Name t.Binding)
      let s1 := { s with calls := s.calls ++ [MMCall.RunModuleHook t.Name t.Binding] }
      if err && !t.AllowFailure then failBranch s1 t FailedModuleDelay else popBranch s1
    | TaskType.GlobalHookRun =>
      let err := mm s.calls (MMCall.RunGlobalHook t.Name t.Binding)
      let s1 := { s with calls := s.calls ++ [MMCall.RunGlobalHook t.Name t.Binding] }
      if err && !t.AllowFailure then failBranch s1 t FailedHookDelay else popBranch s1
    | TaskType.Delay =>
      let s1 := { s with slept := s.slept ++ [t.Delay] }
      popBranch s1

/-- The runner step iterated `n` times. -/
def TasksRunnerSteps (mm : Collaborator) : Nat → RunnerState → RunnerState
  | 0, s => s
  | n + 1, s => TasksRunnerSteps mm n (TasksRunnerStep mm s)

/-- The inner drain loop of `TasksRunner` (lines 263-316), bounded by `fuel` iterations:
it stops when `Peek` yields nil or when the queue is empty after a dispatch. -/
def TasksRunnerInner (mm : Collaborator) : Nat → RunnerState → RunnerState
  | 0, s => s
  | fuel + 1, s =>
    match s.queue.Peek with
    | none => s
    | some _ =>
      let s1 := TasksRunnerStep mm s
      if s1.queue.IsEmpty then s1 else TasksRunnerInner mm fuel s1

/-- One iteration of the outer loop of `TasksRunner` (lines 258-317): sleep
`QueueIsEmptyDelay` if the queue is empty, then run the inner loop. -/
def TasksRunnerOuter (mm : Collaborator) (fuel : Nat) (s : RunnerState) : RunnerState :=
  let s1 := if s.queue.IsEmpty then { s with slept := s.slept ++ [QueueIsEmptyDelay] } else s
  TasksRunnerInner mm fuel s1

/-! ## Composition rules (main.go, lines 362-411) and the startup part of Run -/

/-- The loop `for _, hookName := range hooks { TasksQueue.Add(NewTask(GlobalHookRun,
hookName).WithBinding(binding)) }`. -/
def addGlobalHookTasks (binding : BindingType) (hooks : List String) (q : TasksQueue) :
    TasksQueue :=
  hooks.foldl (fun acc hookName =>
    acc.Add ((NewTask TaskType.GlobalHookRun hookName).WithBinding binding)) q

/-- The loop `for _, moduleName := range moduleNames { TasksQueue.Add(NewTask(ModuleRun,
moduleName)) }`. -/
def addModuleRunTasks (moduleNames : List String) (q : TasksQueue) : TasksQueue :=
  moduleNames.foldl (fun acc moduleName => acc.Add (NewTask TaskType.ModuleRun moduleName)) q

/-- `CreateOnStartupTasks` (lines 362-375).  A non-nil error of the query is only logged:
the loop runs over the list the query returned. -/
def CreateOnStartupTasks (mm : ModuleManager) (q : TasksQueue) : TasksQueue :=
  let onStartupHooks := (mm.GetGlobalHooksInOrder BindingType.OnStartup).1
  addGlobalHookTasks BindingType.OnStartup onStartupHooks q

/-- `CreateReloadAllTasks` (lines 377-411).  A non-nil error of either hook query is only
logged: each loop runs over the list its query returned. -/
def CreateReloadAllTasks (mm : ModuleManager) (q : TasksQueue) : TasksQueue :=
  let beforeAllHooks := (mm.GetGlobalHooksInOrder BindingType.BeforeAll).1
  let q1 := addGlobalHookTasks BindingType.BeforeAll beforeAllHooks q
  let moduleNames := mm.GetModuleNamesInOrder
  let q2 := addModuleRunTasks moduleNames q1
  let afterAllHooks := (mm.GetGlobalHooksInOrder BindingType.AfterAll).1
  addGlobalHookTasks BindingType.AfterAll afterAllHooks q2

/-- The startup composition of `Run` (lines 148-151): both builders under one change
gate.  The goroutines started afterwards are not part of the model. -/
def Run (mm : ModuleManager) (q : TasksQueue) : TasksQueue :=
  (CreateReloadAllTasks mm (CreateOnStartupTasks mm q.ChangesDisable)).ChangesEnable true

/-! ## ManagersEventsHandler (main.go, lines 167-250) -/

/-- Modelled from the spec: `module_manager.ChangeType`, the kinds of a module change
(section 4.4, case 2). -/
inductive ChangeType where
  | Enabled
  | Disabled
  | Changed
  deriving DecidableEq, Repr

/-- Modelled from the spec: one element of `moduleEvent.ModulesChanges`. -/
structure ModuleChange where
  Name : String
  ChangeType : ChangeType
  deriving DecidableEq, Repr

/-- Modelled from the spec: the two subtypes of a module-manager event (section 4.4,
case 2). -/
inductive EventType where
  | ModulesChanged
  | GlobalChanged
  deriving DecidableEq, Repr

/-- Modelled from the spec: `module_manager.Event`.  The field `Kind` is the Go field
`Type`. -/
structure Event where
  ModulesChanges : List ModuleChange
  Kind : EventType
  deriving DecidableEq, Repr

/-- The type `ScheduleIdType` (line 322): an empty struct. -/
abbrev ScheduleIdType := Unit

/-- Modelled from the spec: `module_manager.ScheduleConfig`, of which main.go reads
`AllowFailure`. -/
structure ScheduleConfig where
  AllowFailure : Bool
  deriving DecidableEq, Repr

/-- The type `ScheduleHook` (lines 324-327). -/
structure ScheduleHook where
  Name : String
  Schedule : ScheduleConfig
  deriving DecidableEq, Repr

/-- What the handler reads besides the queue: the module manager, the cluster client
(`KubeUpdateDeployment id` is `true` when the call returns a non-nil error) and the
registry `ScheduleHooks` (line 335). -/
structure Managers where
  mm : ModuleManager
  KubeUpdateDeployment : String → Bool
  ScheduleHooks : ScheduleIdType → List ScheduleHook

/-- `GetScheduleHooks` (lines 337-339). -/
def GetScheduleHooks (env : Managers) (scheduleId : ScheduleIdType) : List ScheduleHook :=
  env.ScheduleHooks scheduleId

/-- The signal received by one round of the `select` of `ManagersEventsHandler`. -/
inductive Signal where
  | ImageUpdated (newImageId : String)
  | ModuleEvent (moduleEvent : Event)
  | KubeNodeChanged
  | ScheduleEvent (scheduleId : ScheduleIdType)
  deriving DecidableEq, Repr

/-- State threaded through the handler: the queue and the exit status once `os.Exit`
was called. -/
structure HandlerState where
  queue : TasksQueue
  exited : Option Int
  deriving DecidableEq, Repr

/-- The body of the loop over `moduleEvent.ModulesChanges` (lines 190-197). -/
def addModuleChangeTask (q : TasksQueue) (moduleChange : ModuleChange) : TasksQueue :=
  match moduleChange.ChangeType with
  | ChangeType.Enabled => q.Add (NewTask TaskType.ModuleRun moduleChange.Name)
  | ChangeType.Changed => q.Add (NewTask TaskType.ModuleRun moduleChange.Name)
  | ChangeType.Disabled => q.Add (NewTask TaskType.ModuleDelete moduleChange.Name)

/-- The case `ModulesChanged` (lines 187-198): one `Add` per change, no gate. -/
def handleModulesChanged (changes : List ModuleChange) (q : TasksQueue) : TasksQueue :=
  changes.foldl addModuleChangeTask q

/-- The case `GlobalChanged` (lines 200-204). -/
def handleGlobalChanged (mm : ModuleManager) (q : TasksQueue) : TasksQueue :=
  (CreateReloadAllTasks mm q.ChangesDisable).ChangesEnable true

/-- The case `KubeNodeChanged` (lines 206-218).  A non-nil error of the query is only
logged: the loop runs over the list the query returned. -/
def handleKubeNodeChanged (mm : ModuleManager) (q : TasksQueue) : TasksQueue :=
  let q1 := q.ChangesDisable
  let hookNames := (mm.GetGlobalHooksInOrder BindingType.OnKubeNodeChange).1
  let q2 := addGlobalHookTasks BindingType.OnKubeNodeChange hookNames q1
  q2.ChangesEnable true

/-- The task built at lines 228-230 for a descriptor that resolves as a global hook. -/
def scheduleGlobalTask (hook : ScheduleHook) : Task :=
  ((NewTask TaskType.GlobalHookRun hook.Name).WithBinding BindingType.Schedule).WithAllowFailure
    hook.Schedule.AllowFailure

/-- The task built at lines 238-240 for a descriptor that resolves as a module hook. -/
def scheduleModuleTask (hook : ScheduleHook) : Task :=
  ((NewTask TaskType.ModuleHookRun hook.Name).WithBinding BindingType.Schedule).WithAllowFailure
    hook.Schedule.AllowFailure

/-- The loop `for _, hook := range scheduleHooks` (lines 223-247).  The `break` of lines
233 and 243 leaves this loop, its innermost enclosing statement: after the first
descriptor that resolves no further descriptor is looked at.  A descriptor that resolves
as neither is logged and the loop goes on. -/
def scheduleLoop (mm : ModuleManager) : List ScheduleHook → TasksQueue → TasksQueue
  | [], q => q
  | hook :: rest, q =>
    if mm.GetGlobalHook hook.Name then
      q.Add (scheduleGlobalTask hook)
    else if mm.GetModuleHook hook.Name then
      q.Add (scheduleModuleTask hook)
    else
      scheduleLoop mm rest q

/-- The case of a schedule signal (lines 221-247). -/
def handleSchedule (env : Managers) (scheduleId : ScheduleIdType) (q : TasksQueue) :
    TasksQueue :=
  scheduleLoop env.mm (GetScheduleHooks env scheduleId) q

/-- One round of the `select` of `ManagersEventsHandler` (lines 169-248). -/
def ManagersEventsHandlerStep (env : Managers) (sig : Signal) (st : HandlerState) :
    HandlerState :=
  match sig with
  | Signal.ImageUpdated newImageId =>
    if env.KubeUpdateDeployment newImageId then st else { st with exited := some 1 }
  | Signal.ModuleEvent moduleEvent =>
    match moduleEvent.Kind with
    | EventType.ModulesChanged =>
      { st with queue := handleModulesChanged moduleEvent.ModulesChanges st.queue }
    | EventType.GlobalChanged =>
      { st with queue := handleGlobalChanged env.mm st.queue }
  | Signal.KubeNodeChanged =>
    { st with queue := handleKubeNodeChanged env.mm st.queue }
  | Signal.ScheduleEvent scheduleId =>
    { st with queue := handleSchedule env scheduleId st.queue }

/-- The loop of `ManagersEventsHandler` over the signals received, oldest first; it ends
with the process when `os.Exit` is called. -/
def ManagersEventsHandler (env : Managers) : List Signal → HandlerState → HandlerState
  | [], st => st
  | sig :: sigs, st =>
    match st.exited with
    | some _ => st
    | none => ManagersEventsHandler env sigs (ManagersEventsHandlerStep env sig st)

/-! ## Scenarios used by the theorems -/

/-! ## Scenario S3: a hook that fails twice, then succeeds -/

/-- The task of scenario S3: `ModuleHookRun(h, Schedule)` with `allowFailure=false`. -/
def s3Task : Task :=
  (NewTask TaskType.ModuleHookRun "h").WithBinding BindingType.Schedule

/-- A collaborator that returns an error on its first two calls and succeeds afterwards. -/
def failTwice : Collaborator := fun history _ => decide (history.length < 2)

/-- The runner state of scenario S3: the queue holds only `s3Task`. -/
def s3Init : RunnerState :=
  { queue := NewTasksQueue.Add s3Task, calls := [], slept := [], logged := [] }

/-- The module manager of scenario S1: modules `a`, `b`; `OnStartup` hook `gs1`,
`BeforeAll` hook `gb1`, `AfterAll` hook `ga1`; every query succeeds. -/
def s1Manager : ModuleManager :=
  { GetGlobalHooksInOrder := fun b =>
      match b with
      | BindingType.OnStartup => (["gs1"], false)
      | BindingType.BeforeAll => (["gb1"], false)
      | BindingType.AfterAll => (["ga1"], false)
      | _ => ([], false),
    GetModuleNamesInOrder := ["a", "b"],
    GetGlobalHook := fun _ => false,
    GetModuleHook := fun _ => false }

/-- A module manager like `s1Manager` whose `BeforeAll` query returns an error together
with a non-empty list of names. -/
def errWithNamesManager : ModuleManager :=
  { s1Manager with
    GetGlobalHooksInOrder := fun b =>
      match b with
      | BindingType.BeforeAll => (["gb1"], true)
      | _ => s1Manager.GetGlobalHooksInOrder b }

/-- A module manager like `s1Manager` whose `BeforeAll` query returns an error and no
name. -/
def errNoNamesManager : ModuleManager :=
  { s1Manager with
    GetGlobalHooksInOrder := fun b =>
      match b with
      | BindingType.BeforeAll => ([], true)
      | _ => s1Manager.GetGlobalHooksInOrder b }

/-- A module manager like `s1Manager` whose `OnStartup` query returns an error together
with a name. -/
def errStartupManager : ModuleManager :=
  { s1Manager with
    GetGlobalHooksInOrder := fun b =>
      match b with
      | BindingType.OnStartup => (["gs1"], true)
      | _ => s1Manager.GetGlobalHooksInOrder b }

/-- The `GlobalHookRun` tasks the builders create for a list of hook names. -/
def globalHookTasks (binding : BindingType) (hooks : List String) : List Task :=
  hooks.map (fun hookName => (NewTask TaskType.GlobalHookRun hookName).WithBinding binding)

/-- The `ModuleRun` tasks the builders create for a list of module names. -/
def moduleRunTasks (moduleNames : List String) : List Task :=
  moduleNames.map (fun moduleName => NewTask TaskType.ModuleRun moduleName)

/-- The changes of scenario S2: module `a` enabled, module `b` disabled. -/
def s2Changes : List ModuleChange :=
  [{ Name := "a", ChangeType := ChangeType.Enabled },
   { Name := "b", ChangeType := ChangeType.Disabled }]

/-- A module manager that knows the global hooks `g1`, `g2` and `both` and the module
hooks `m1` and `both`; its `OnKubeNodeChange` hooks are `n1`, `n2`. -/
def hookManager : ModuleManager :=
  { GetGlobalHooksInOrder := fun b =>
      match b with
      | BindingType.OnKubeNodeChange => (["n1", "n2"], false)
      | _ => ([], false),
    GetModuleNamesInOrder := [],
    GetGlobalHook := fun n => n == "g1" || n == "g2" || n == "both",
    GetModuleHook := fun n => n == "m1" || n == "both" }

/-- Managers around `hookManager` whose schedule registry holds the given descriptors. -/
def scheduleManagers (hooks : List ScheduleHook) : Managers :=
  { mm := hookManager, KubeUpdateDeployment := fun _ => true, ScheduleHooks := fun _ => hooks }

/-- A descriptor with the given name and `AllowFailure`. -/
def descriptor (name : String) (allowFailure : Bool) : ScheduleHook :=
  { Name := name, Schedule := { AllowFailure := allowFailure } }

end Operator

/-! ## Merging of values (src/merge_values/merge_values.go) -/

namespace merge_values

/-- Keys of a values map.  The Go key type is `interface{}`; the model takes strings. -/
abbrev Key := String

/-- The values of a values tree, as Go `interface{}` values: nil, scalars (with their
dynamic type), `[]interface{}` and `map[interface{}]interface{}`.  A float is kept as
its bit pattern; no arithmetic is done on values. -/
inductive Value where
  | null
  | bool (b : Bool)
  | int (i : Int)
  | float (bits : Nat)
  | str (s : String)
  | list (xs : List Value)
  | map (kvs : List (Key × Value))

/-- A Go `map[interface{}]interface{}`: its entries, in the order in which `range` visits
them.  A Go map has no two entries with one key (`validMap`). -/
abbrev Values := List (Key × Value)

/-- The dynamic types `reflect.TypeOf` can return on a values tree. -/
inductive GoType where
  | bool
  | int
  | float64
  | string
  | slice
  | map
  deriving DecidableEq, Repr

/-- `reflect.TypeOf(v)`: `none` is the nil `reflect.Type` returned for a nil interface. -/
def typeOf : Value → Option GoType
  | Value.null => none
  | Value.bool _ => some GoType.bool
  | Value.int _ => some GoType.int
  | Value.float _ => some GoType.float64
  | Value.str _ => some GoType.string
  | Value.list _ => some GoType.slice
  | Value.map _ => some GoType.map

/-- The type assertion `v.(map[interface{}]interface{})`; `none` is the panic of a failed
assertion. -/
def asMap : Value → Option Values
  | Value.map m => some m
  | _ => none

/-- The type assertion `v.([]interface{})`; `none` is the panic of a failed assertion. -/
def asSlice : Value → Option (List Value)
  | Value.list xs => some xs
  | _ => none

/-- The map read `v, isExist := m[k]`: `none` when the key does not exist. -/
def index : Values → Key → Option Value
  | [], _ => none
  | (k1, v) :: rest, k => if k1 = k then some v else index rest k

/-- The map write `m[k] = v`: an existing entry is replaced, a new one comes last. -/
def assign : Values → Key → Value → Values
  | [], k, v => [(k, v)]
  | (k1, v1) :: rest, k, v => if k1 = k then (k1, v) :: rest else (k1, v1) :: assign rest k v

/-- Change the value stored under an existing key `k` by `g`; no entry is added. -/
def update : Values → Key → (Value → Value) → Values
  | [], _, _ => []
  | (k1, v1) :: rest, k, g => if k1 = k then (k1, g v1) :: rest else (k1, v1) :: update rest k g

/-- The keys of a map, in order. -/
def keys (m : Values) : List Key := m.map Prod.fst

/-- The copy loops of lines 17-20 and 38-41: `for key, value := range m { r[key] = value }`
into a new map. -/
def copyMap (m : Values) : Values :=
  m.foldl (fun r e => assign r e.1 e.2) []

/-- The map reached from `r` by following the keys of a path, if every step is a map. -/
def getAt : Values → List Key → Option Values
  | r, [] => some r
  | r, k :: ks =>
    match index r k with
    | some (Value.map m) => getAt m ks
    | _ => none

/-- Apply `g` to the entries of a map value; any other value is left alone. -/
def liftMap (g : Values → Values) : Value → Value
  | Value.map m => Value.map (g m)
  | other => other

/-- Change the map reached from `r` by a path: the write through a map reference. -/
def modifyAt (f : Values → Values) : Values → List Key → Values
  | r, [] => f r
  | r, k :: ks => update r k (liftMap (fun m => modifyAt f m ks))

/-- The type `mergeValuesPair` (lines 11-14).  Go holds in `A` a reference to a map that
is `res` itself or a fresh `resMap` stored inside `res`; the model holds the path of keys
that leads from `res` to that map.  `B` is never written. -/
structure mergeValuesPair where
  A : List Key
  B : Values

/-- The variables `res` and `queue` of `mergeTwoValues`. -/
structure MergeState where
  res : Values
  queue : List mergeValuesPair

/-- How a call ends: with a result, with a Go runtime panic, or at the bound of the
model. -/
inductive Outcome (α : Type) where
  | ok (a : α)
  | panic
  | outOfFuel

/-- The body of `for k, v2 := range pair.B` (lines 28-65); `none` is a panic.
`v1Type.Kind()` is a method call on the nil `reflect.Type` when `v1` is nil, which is
reached when `v2` is nil too (`v1Type == v2Type`). -/
def processEntry (pairA : List Key) (st : MergeState) (k : Key) (v2 : Value) :
    Option MergeState :=
  match (getAt st.res pairA).bind (fun a => index a k) with
  | some v1 =>
    if typeOf v1 = typeOf v2 then
      match typeOf v1 with
      | none => none
      | some GoType.map =>
        match asMap v1, asMap v2 with
        | some m1, some m2 =>
          some { res := modifyAt (fun a => assign a k (Value.map (copyMap m1))) st.res pairA,
                 queue := st.queue ++ [{ A := pairA ++ [k], B := m2 }] }
        | _, _ => none
      | some GoType.slice =>
        match asSlice v1, asSlice v2 with
        | some xs1, some xs2 =>
          some { st with
            res := modifyAt (fun a => assign a k (Value.list (xs1 ++ xs2))) st.res pairA }
        | _, _ => none
      | some _ => some { st with res := modifyAt (fun a => assign a k v2) st.res pairA }
    else
      some { st with res := modifyAt (fun a => assign a k v2) st.res pairA }
  | none => some { st with res := modifyAt (fun a => assign a k v2) st.res pairA }

/-- The loop `for k, v2 := range pair.B` (lines 28-65) over the entries of `pair.B`. -/
def processPair (pairA : List Key) : Values → MergeState → Option MergeState
  | [], st => some st
  | (k, v2) :: rest, st =>
    match processEntry pairA st k v2 with
    | none => none
    | some st1 => processPair pairA rest st1

/-- The loop `for len(queue) > 0` (lines 24-66), bounded by `fuel` rounds. -/
def mergeLoop : Nat → MergeState → Outcome Values
  | 0, _ => Outcome.outOfFuel
  | fuel + 1, st =>
    match st.queue with
    | [] => Outcome.ok st.res
    | pair :: rest =>
      match processPair pair.A pair.B { st with queue := rest } with
      | none => Outcome.panic
      | some st1 => mergeLoop fuel st1

/-- `mergeTwoValues` (lines 16-70). -/
def mergeTwoValues (fuel : Nat) (A B : Values) : Outcome Values :=
  mergeLoop fuel { res := copyMap A, queue := [{ A := [], B := B }] }

/-- `MergeValues` (lines 72-80): `res = mergeTwoValues(res, values)` for each argument,
starting from an empty map. -/
def MergeValues (fuel : Nat) (ValuesArr : List Values) : Outcome Values :=
  ValuesArr.foldl (fun res values =>
    match res with
    | Outcome.ok r => mergeTwoValues fuel r values
    | other => other) (Outcome.ok [])

/-! ### The reference merge, without a queue -/

mutual
/-- Reference: the value of a key of `B` in the merge, from the value `A` has for that
key (if any) and the value `v2` of `B`: two maps are merged by the same rule, two lists
give the elements of `A` followed by those of `B`, in every other case `v2` wins. -/
def combineRef : Option Value → Value → Value
  | some (Value.map m1), Value.map m2 => Value.map (mergeInto m1 m1 m2)
  | some (Value.list xs1), Value.list xs2 => Value.list (xs1 ++ xs2)
  | _, v2 => v2
/-- Reference: write into `acc`, for each entry of the third argument, the combined value
of its key. -/
def mergeInto (A : Values) : Values → Values → Values
  | acc, [] => acc
  | acc, (k, v2) :: rest => mergeInto A (assign acc k (combineRef (index A k) v2)) rest
end

/-- Reference: the recursive merge of `A` and `B`.  The result starts as `A`; every key
of `B` gets the combined value `combineRef`. -/
def mergeRef (A B : Values) : Values := mergeInto A A B

mutual
/-- A key of `B` holds nil where `A` holds nil too, here or in two maps merged below. -/
def clashesAt : Option Value → Value → Bool
  | some Value.null, Value.null => true
  | some (Value.map m1), Value.map m2 => clashes m1 m2
  | _, _ => false
/-- Some key reached by the merge of `A` and `B` holds nil in both. -/
def clashes (A : Values) : Values → Bool
  | [] => false
  | (k, v2) :: rest => clashesAt (index A k) v2 || clashes A rest
end

mutual
/-- The number of maps in a value, not counting those inside lists. -/
def weightOf : Value → Nat
  | Value.map m => weight m
  | _ => 0
/-- The number of maps in a map, itself included, not counting those inside lists: a
bound on the rounds of the queue loop. -/
def weight : Values → Nat
  | [] => 1
  | (_, v) :: rest => weightOf v + weight rest
end

mutual
/-- Every map in the value (outside lists) has distinct keys. -/
def validValue : Value → Bool
  | Value.map m => validMap m
  | _ => true
/-- The map is a Go map: its keys are distinct, and so are those of every map below it
(outside lists). -/
def validMap : Values → Bool
  | [] => true
  | (k, v) :: rest => validValue v && decide (k ∉ keys rest) && validMap rest
end

/-! ### What remains to be done by a queue -/

/-- The first pass of the loop over one `pair.B`: like `combineRef`, but two maps give
the copy of the map of `A`, to be merged later. -/
def shallowVal : Option Value → Value → Value
  | some (Value.map m1), Value.map _ => Value.map m1
  | some (Value.list xs1), Value.list xs2 => Value.list (xs1 ++ xs2)
  | _, v2 => v2

/-- The map `pair.A` after the loop over `pair.B`. -/
def shallowInto (A : Values) : Values → Values → Values
  | acc, [] => acc
  | acc, (k, v2) :: rest => shallowInto A (assign acc k (shallowVal (index A k) v2)) rest

/-- The pair queued for one entry, if any: its key and the map of `B`. -/
def childOf : Option Value → Key → Value → List (Key × Values)
  | some (Value.map _), k, Value.map m2 => [(k, m2)]
  | _, _, _ => []

/-- The pairs queued by the loop over one `pair.B`. -/
def localChildren (A : Values) : Values → List (Key × Values)
  | [] => []
  | (k, v2) :: rest => childOf (index A k) k v2 ++ localChildren A rest

/-- The queue entries of a list of children of the map at path `p`. -/
def childPairs (p : List Key) (chs : List (Key × Values)) : List mergeValuesPair :=
  chs.map (fun c => { A := p ++ [c.1], B := c.2 })

/-- The reference merge with `m2`, applied to a map value. -/
def deepAt (m2 : Values) : Value → Value :=
  liftMap (fun m1 => mergeInto m1 m1 m2)

/-- The reference merges of a list of children, applied to their parent map. -/
def applyLocal (chs : List (Key × Values)) (m : Values) : Values :=
  chs.foldl (fun r c => update r c.1 (deepAt c.2)) m

/-- What a queued pair stands for: the reference merge of `pair.B` into the map at
`pair.A`. -/
def pendingMod (pair : mergeValuesPair) (r : Values) : Values :=
  modifyAt (fun a => mergeInto a a pair.B) r pair.A

/-- The result a state stands for: `res` after the merges of all queued pairs. -/
def pending (res : Values) (queue : List mergeValuesPair) : Values :=
  queue.foldl (fun r pair => pendingMod pair r) res

/-- Two paths part at some key: neither leads through the map of the other. -/
def Diverge (p q : List Key) : Prop :=
  ∃ c k1 k2 t1 t2, p = c ++ k1 :: t1 ∧ q = c ++ k2 :: t2 ∧ k1 ≠ k2

/-- The measure of the queue loop. -/
def queueWeight (q : List mergeValuesPair) : Nat :=
  (q.map (fun pr => weight pr.B)).sum

/-- The invariant of the queue loop: the queued paths part from one another, and each
leads to a valid map of `res` that has no nil clash with the valid `B` of its pair. -/
def QueueOk (res : Values) (queue : List mergeValuesPair) : Prop :=
  List.Pairwise (fun x y : mergeValuesPair => Diverge x.A y.A) queue ∧
    ∀ pr, pr ∈ queue → ∃ a, getAt res pr.A = some a ∧ validMap a = true ∧
      validMap pr.B = true ∧ clashes a pr.B = false

/-- Two maps with a nested map and a list under common keys. -/
def exampleA : Values :=
  [("a", Value.int 1),
   ("m", Value.map [("x", Value.int 1), ("l", Value.list [Value.int 1])]),
   ("n", Value.null)]

/-- The map merged into `exampleA`. -/
def exampleB : Values :=
  [("m", Value.map [("y", Value.str "s"), ("l", Value.list [Value.int 2])]),
   ("b", Value.bool true),
   ("a", Value.str "z")]

/-- A map whose only key holds nil. -/
def nullMap : Values := [("k", Value.null)]

end merge_values

/-! ### Where the merge panics -/

namespace merge_values

/-- Both values are nil: the case in which `v1Type.Kind()` is called on the nil type. -/
def nilAt : Option Value → Value → Bool
  | some Value.null, Value.null => true
  | _, _ => false

/-- Some key of `B` holds nil where `A` holds nil too, at this level. -/
def nilPair (A : Values) : Values → Bool
  | [] => false
  | (k, v2) :: rest => nilAt (index A k) v2 || nilPair A rest

/-- The invariant of the queue loop without the condition on nil: the queued paths part
from one another, and each leads to a valid map of `res`, the `B` of its pair being valid
too. -/
def QueueValid (res : Values) (queue : List mergeValuesPair) : Prop :=
  List.Pairwise (fun x y : mergeValuesPair => Diverge x.A y.A) queue ∧
    ∀ pr, pr ∈ queue → ∃ a, getAt res pr.A = some a ∧ validMap a = true ∧
      validMap pr.B = true

/-- Two maps that hold nil under the key `k` of their nested map `m`. -/
def nestedNullA : Values :=
  [("m", Value.map [("x", Value.int 1), ("k", Value.null)]), ("a", Value.int 1)]

/-- The map merged into `nestedNullA`. -/
def nestedNullB : Values :=
  [("m", Value.map [("k", Value.null)])]

end merge_values

/-! ## Kube event hooks controller
(src/pkg/module_manager/hook/kube_event/hooks_controller.go) -/

namespace kube_event

/-- The field `NamespaceSelector` of an `OnKubernetesEventConfig`, as read at lines
19-22. -/
structure NamespaceSelector where
  Any : Bool
  MatchNames : List String
  deriving DecidableEq, Repr

/-- The fields of `kube_events_manager.OnKubernetesEventConfig` (a library type) that the
controller reads.  Event types, selector and filter are kept as text. -/
structure OnKubernetesEventConfig where
  Name : String
  EventTypes : List String
  Kind : String
  NamespaceSelector : NamespaceSelector
  Selector : String
  JqFilter : String
  AllowFailure : Bool
  DisableDebug : Bool
  deriving DecidableEq, Repr

/-- The Go zero value of `OnKubernetesEventConfig`. -/
def OnKubernetesEventConfig.zero : OnKubernetesEventConfig :=
  { Name := "", EventTypes := [], Kind := "", NamespaceSelector := { Any := false, MatchNames := [] },
    Selector := "", JqFilter := "", AllowFailure := false, DisableDebug := false }

/-- The fields of `kube_event.KubeEventHook` (a library type) that the controller writes
or reads. -/
structure KubeEventHook where
  HookName : String
  Name : String
  EventTypes : List String
  Kind : String
  Namespace : String
  Selector : String
  ObjectName : String
  JqFilter : String
  AllowFailure : Bool
  Debug : Bool
  Config : OnKubernetesEventConfig
  deriving DecidableEq, Repr

/-- What the controller uses of a `module_manager.Hook` and its `HookConfig`: the name
returned by `GetName()` and the list `OnKubernetesEvent`. -/
structure Hook where
  Name : String
  OnKubernetesEvent : List OnKubernetesEventConfig
  deriving DecidableEq, Repr

/-- `ConvertOnKubernetesEventToKubeEventHook` (lines 31-43).  The fields `ObjectName` and
`Config` are not set and keep their zero values. -/
def ConvertOnKubernetesEventToKubeEventHook (hook : Hook) (config : OnKubernetesEventConfig)
    (namespace_ : String) : KubeEventHook :=
  { HookName := hook.Name,
    Name := config.Name,
    EventTypes := config.EventTypes,
    Kind := config.Kind,
    Namespace := namespace_,
    Selector := config.Selector,
    ObjectName := "",
    JqFilter := config.JqFilter,
    AllowFailure := config.AllowFailure,
    Debug := !config.DisableDebug,
    Config := OnKubernetesEventConfig.zero }

/-- `MakeKubeEventHookDescriptors` (lines 15-29): one descriptor for a config that
selects any namespace, else one per matched namespace. -/
def MakeKubeEventHookDescriptors (hook : Hook) (configs : List OnKubernetesEventConfig) :
    List KubeEventHook :=
  configs.foldl (fun res config =>
    if config.NamespaceSelector.Any then
      res ++ [ConvertOnKubernetesEventToKubeEventHook hook config ""]
    else
      config.NamespaceSelector.MatchNames.foldl (fun r ns =>
        r ++ [ConvertOnKubernetesEventToKubeEventHook hook config ns]) res) []

/-- A Go `map[string]*KubeEventHook`: its entries, in the order in which `range` visits
them.  The descriptors the controller stores (lines 79 and 110) are never nil. -/
abbrev HookMap := List (String × KubeEventHook)

/-- The map read `desc, hasKey := m[id]`. -/
def mapGet : HookMap → String → Option KubeEventHook
  | [], _ => none
  | (k, d) :: rest, id => if k = id then some d else mapGet rest id

/-- The map write `m[id] = desc`: an existing entry is replaced, a new one comes last. -/
def mapSet : HookMap → String → KubeEventHook → HookMap
  | [], id, desc => [(id, desc)]
  | (k, d) :: rest, id, desc =>
    if k = id then (k, desc) :: rest else (k, d) :: mapSet rest id desc

/-- The map delete `delete(m, id)`. -/
def mapDelete : HookMap → String → HookMap
  | [], _ => []
  | (k, d) :: rest, id => if k = id then mapDelete rest id else (k, d) :: mapDelete rest id

/-- The type `MainKubeEventsHooksController` (lines 52-56). -/
structure MainKubeEventsHooksController where
  GlobalHooks : HookMap
  ModuleHooks : HookMap
  EnabledModules : List String
  deriving DecidableEq, Repr

/-- `NewMainKubeEventsHooksController` (lines 59-65). -/
def NewMainKubeEventsHooksController : MainKubeEventsHooksController :=
  { GlobalHooks := [], ModuleHooks := [], EnabledModules := [] }

/-- The arguments of `eventsManager.Run` (lines 75 and 106). -/
structure RunArgs where
  EventTypes : List String
  Kind : String
  Namespace : String
  Selector : String
  ObjectName : String
  JqFilter : String
  Debug : Bool
  deriving DecidableEq, Repr

/-- The arguments the controller passes to `eventsManager.Run` for a descriptor. -/
def runArgs (desc : KubeEventHook) : RunArgs :=
  { EventTypes := desc.EventTypes, Kind := desc.Kind, Namespace := desc.Namespace,
    Selector := desc.Selector, ObjectName := desc.ObjectName, JqFilter := desc.JqFilter,
    Debug := desc.Debug }

/-- The calls the controller makes to the events manager. -/
inductive EMCall where
  | Run (args : RunArgs)
  | Stop (configId : String)
  deriving DecidableEq, Repr

/-- The collaborators of the controller, parameters of the model.  A result of type
`Except` is the Go pair of a value and an error, the value being dropped by the code when
the error is not nil; `Stop` returns `some` for a non-nil error.  The events manager sees
the calls made before (oldest first).  `GetModuleHook` and `GetGlobalHook` give the hook
of a name; the code drops their error result (lines 72 and 103). -/
structure Managers where
  GetGlobalHooksInOrder : List String
  GetModuleHooksInOrder : String → Except String (List String)
  GetGlobalHook : String → Hook
  GetModuleHook : String → Hook
  Run : List EMCall → RunArgs → Except String String
  Stop : List EMCall → String → Option String

/-- State threaded through the controller methods: the controller and the calls made to
the events manager so far (oldest first). -/
structure World where
  obj : MainKubeEventsHooksController
  calls : List EMCall
  deriving DecidableEq, Repr

/-- Which of the two maps a run of informers fills. -/
inductive Target where
  | Global
  | Module
  deriving DecidableEq, Repr

/-- The statement `obj.GlobalHooks[configId] = desc` (line 79) or
`obj.ModuleHooks[configId] = desc` (line 110). -/
def register (target : Target) (obj : MainKubeEventsHooksController) (configId : String)
    (desc : KubeEventHook) : MainKubeEventsHooksController :=
  match target with
  | Target.Global => { obj with GlobalHooks := mapSet obj.GlobalHooks configId desc }
  | Target.Module => { obj with ModuleHooks := mapSet obj.ModuleHooks configId desc }

/-- The loop over the descriptors of one hook (lines 74-82 and 105-113): run an informer
and register the descriptor under the returned id; the first error is returned at once. -/
def runDescriptors (env : Managers) (target : Target) :
    List KubeEventHook → World → Option String × World
  | [], w => (none, w)
  | desc :: rest, w =>
    match env.Run w.calls (runArgs desc) with
    | Except.error err => (some err, { w with calls := w.calls ++ [EMCall.Run (runArgs desc)] })
    | Except.ok configId =>
      runDescriptors env target rest
        { obj := register target w.obj configId desc,
          calls := w.calls ++ [EMCall.Run (runArgs desc)] }

/-- The loop over hook names (lines 71-83 and 102-114). -/
def runHooks (env : Managers) (target : Target) (getHook : String → Hook) :
    List String → World → Option String × World
  | [], w => (none, w)
  | hookName :: rest, w =>
    let hook := getHook hookName
    match runDescriptors env target (MakeKubeEventHookDescriptors hook hook.OnKubernetesEvent)
        w with
    | (some err, w1) => (some err, w1)
    | (none, w1) => runHooks env target getHook rest w1

/-- `EnableGlobalHooks` (lines 68-86).  The first component is the returned error. -/
def EnableGlobalHooks (env : Managers) (w : World) : Option String × World :=
  runHooks env Target.Global env.GetGlobalHook env.GetGlobalHooksInOrder w

/-- `EnableModuleHooks` (lines 89-119).  The first component is the returned error. -/
def EnableModuleHooks (env : Managers) (moduleName : String) (w : World) :
    Option String × World :=
  if moduleName ∈ w.obj.EnabledModules then
    (none, w)
  else
    match env.GetModuleHooksInOrder moduleName with
    | Except.error err => (some err, w)
    | Except.ok moduleHooks =>
      match runHooks env Target.Module env.GetModuleHook moduleHooks w with
      | (some err, w1) => (some err, w1)
      | (none, w1) =>
        (none, { w1 with
          obj := { w1.obj with EnabledModules := w1.obj.EnabledModules ++ [moduleName] } })

/-- The loop `for configId, desc := range obj.ModuleHooks` (lines 140-153) over the
entries still to visit.  An entry whose `HookName` is one of the disabled hook names is
stopped and then deleted; a failing `Stop` returns at once. -/
def stopHooks (env : Managers) (disabledModuleHooks : List String) :
    HookMap → World → Option String × World
  | [], w => (none, w)
  | (configId, desc) :: rest, w =>
    if desc.HookName ∈ disabledModuleHooks then
      match env.Stop w.calls configId with
      | some err => (some err, { w with calls := w.calls ++ [EMCall.Stop configId] })
      | none =>
        stopHooks env disabledModuleHooks rest
          { obj := { w.obj with ModuleHooks := mapDelete w.obj.ModuleHooks configId },
            calls := w.calls ++ [EMCall.Stop configId] }
    else
      stopHooks env disabledModuleHooks rest w

/-- `DisableModuleHooks` (lines 122-156).  The module is taken out of `EnabledModules`
(line 133) before the module manager and the events manager are called. -/
def DisableModuleHooks (env : Managers) (moduleName : String) (w : World) :
    Option String × World :=
  if moduleName ∈ w.obj.EnabledModules then
    let w1 : World :=
      { w with obj := { w.obj with EnabledModules := w.obj.EnabledModules.erase moduleName } }
    match env.GetModuleHooksInOrder moduleName with
    | Except.error err => (some err, w1)
    | Except.ok disabledModuleHooks =>
      stopHooks env disabledModuleHooks w1.obj.ModuleHooks w1
  else
    (none, w)

/-- The fields of `kube_events_manager.KubeEvent` (a library type) read by
`HandleEvent`. -/
structure KubeEvent where
  ConfigId : String
  Events : List String
  Namespace : String
  Kind : String
  Name : String
  deriving DecidableEq, Repr

/-- The record `module_manager.BindingContext` built at lines 180-186. -/
structure BindingContext where
  Binding : String
  ResourceEvent : String
  ResourceNamespace : String
  ResourceKind : String
  ResourceName : String
  deriving DecidableEq, Repr

/-- Modelled from the spec: the task of package `task` as this file uses it (section 3):
kind, name, binding, binding-context payload, allow-failure flag and failure counter. -/
structure Task where
  Kind : Operator.TaskType
  Name : String
  Binding : Option Operator.BindingType
  BindingContext : List BindingContext
  AllowFailure : Bool
  FailureCount : Int
  deriving DecidableEq, Repr

/-- Modelled from the spec: `task.NewTask(kind, name)` (section 4.1). -/
def NewTask (kind : Operator.TaskType) (name : String) : Task :=
  { Kind := kind, Name := name, Binding := none, BindingContext := [], AllowFailure := false,
    FailureCount := 0 }

/-- Modelled from the spec: the modifier `WithBinding` (section 4.1). -/
def Task.WithBinding (t : Task) (binding : Operator.BindingType) : Task :=
  { t with Binding := some binding }

/-- Modelled from the spec: the modifier `WithBindingContext` (section 4.1). -/
def Task.WithBindingContext (t : Task) (context : List kube_event.BindingContext) : Task :=
  { t with BindingContext := context }

/-- Modelled from the spec: the modifier `WithAllowFailure` (section 4.1). -/
def Task.WithAllowFailure (t : Task) (allowFailure : Bool) : Task :=
  { t with AllowFailure := allowFailure }

/-- `HandleEvent` (lines 159-200).  `kubeEventsBinding` is the text
`module_manager.ContextBindingType[module_manager.KubeEvents]`.  The result is the pair
of the Go results (`Except.error` for a nil task list and an error) and the controller
after the call. -/
def HandleEvent (kubeEventsBinding : String) (obj : MainKubeEventsHooksController)
    (kubeEvent : KubeEvent) : Except String (List Task) × MainKubeEventsHooksController :=
  let found : Option (KubeEventHook × Operator.TaskType) :=
    match mapGet obj.ModuleHooks kubeEvent.ConfigId with
    | some moduleDesc => some (moduleDesc, Operator.TaskType.ModuleHookRun)
    | none =>
      match mapGet obj.GlobalHooks kubeEvent.ConfigId with
      | some globalDesc => some (globalDesc, Operator.TaskType.GlobalHookRun)
      | none => none
  match found with
  | some (desc, taskType) =>
    let bindingName := if desc.Name = "" then kubeEventsBinding else desc.Name
    let bindingContext := kubeEvent.Events.map (fun kEvent =>
      { Binding := bindingName, ResourceEvent := kEvent,
        ResourceNamespace := kubeEvent.Namespace, ResourceKind := kubeEvent.Kind,
        ResourceName := kubeEvent.Name : BindingContext })
    let newTask := (((NewTask taskType desc.HookName).WithBinding
      Operator.BindingType.KubeEvents).WithBindingContext bindingContext).WithAllowFailure
        desc.Config.AllowFailure
    (Except.ok [newTask], obj)
  | none =>
    (Except.error ("Unknown kube event: no such config id '" ++ kubeEvent.ConfigId
      ++ "' registered"), obj)

/-- A call of the controller, for sequences of calls. -/
inductive Op where
  | EnableGlobalHooks
  | EnableModuleHooks (moduleName : String)
  | DisableModuleHooks (moduleName : String)
  deriving DecidableEq, Repr

/-- One call of the controller with the collaborators it is given. -/
def applyOp (env : Managers) (op : Op) (w : World) : Option String × World :=
  match op with
  | Op.EnableGlobalHooks => EnableGlobalHooks env w
  | Op.EnableModuleHooks moduleName => EnableModuleHooks env moduleName w
  | Op.DisableModuleHooks moduleName => DisableModuleHooks env moduleName w

/-- A sequence of calls, each with its collaborators, whatever the calls return. -/
def applyOps : List (Managers × Op) → World → World
  | [], w => w
  | (env, op) :: rest, w => applyOps rest (applyOp env op w).2

/-! ### Scenarios used by the theorems -/

/-- A config for pods in any namespace, under the given binding name. -/
def podConfig (name : String) : OnKubernetesEventConfig :=
  { Name := name, EventTypes := ["add"], Kind := "Pod",
    NamespaceSelector := { Any := true, MatchNames := [] },
    Selector := "", JqFilter := "", AllowFailure := true, DisableDebug := false }

/-- The hook `h1` with two kube event configs. -/
def hookH1 : Hook :=
  { Name := "h1", OnKubernetesEvent := [podConfig "first", podConfig ""] }

/-- The first descriptor of `hookH1`. -/
def descFirst : KubeEventHook :=
  ConvertOnKubernetesEventToKubeEventHook hookH1 (podConfig "first") ""

/-- The second descriptor of `hookH1`. -/
def descSecond : KubeEventHook :=
  ConvertOnKubernetesEventToKubeEventHook hookH1 (podConfig "") ""

/-- Collaborators for a module `mod` with the hook `h1`: the first informer starts under
the id `id0`, every later `Run` fails; `Stop` succeeds. -/
def secondRunFails : Managers :=
  { GetGlobalHooksInOrder := [],
    GetModuleHooksInOrder := fun _ => Except.ok ["h1"],
    GetGlobalHook := fun _ => hookH1,
    GetModuleHook := fun _ => hookH1,
    Run := fun history _ =>
      match history with
      | [] => Except.ok "id0"
      | _ => Except.error "run failed",
    Stop := fun _ _ => none }

/-- Collaborators whose module manager cannot list the hooks of a module. -/
def listFails : Managers :=
  { secondRunFails with GetModuleHooksInOrder := fun _ => Except.error "no such module" }

/-- A world in which the module `mod` is enabled with one informer `id0`. -/
def modEnabled : World :=
  { obj := { GlobalHooks := [("id0", descSecond), ("id9", descSecond)],
             ModuleHooks := [("id0", descFirst)],
             EnabledModules := ["mod"] },
    calls := [EMCall.Run (runArgs descFirst)] }

/-- A kube event of the informer `id0` carrying two events. -/
def podEvent : KubeEvent :=
  { ConfigId := "id0", Events := ["add", "update"], Namespace := "default", Kind := "Pod",
    Name := "pod-0" }

end kube_event

namespace Operator

/-! ## Basic facts about the runner step -/

theorem TasksRunnerSteps_succ (mm : Collaborator) (n : Nat) (s : RunnerState) :
    TasksRunnerSteps mm (n + 1) s = TasksRunnerStep mm (TasksRunnerSteps mm n s) := by
  induction n generalizing s with
  | zero => rfl
  | succ n ih =>
    show TasksRunnerSteps mm (n + 1) (TasksRunnerStep mm s) = _
    rw [ih]
    rfl

/-- A failed dispatch of a task that is not forgiven: the call is recorded, the delay is
pushed, nothing is slept. -/
theorem step_fail (mm : Collaborator) (s : RunnerState) (h : Task) (rest : List Task)
    (c : MMCall) (hq : s.queue.items = h :: rest) (hc : callOf h = some c)
    (herr : mm s.calls c = true)
    (hforgive : h.Kind = TaskType.ModuleRun ∨ h.Kind = TaskType.ModuleDelete ∨
      h.AllowFailure = false) :
    (TasksRunnerStep mm s).queue.items
        = NewTaskDelay (if h.Kind = TaskType.GlobalHookRun then FailedHookDelay
            else FailedModuleDelay) :: h :: rest
      ∧ (TasksRunnerStep mm s).calls = s.calls ++ [c]
      ∧ (TasksRunnerStep mm s).slept = s.slept
      ∧ (TasksRunnerStep mm s).logged
          = s.logged ++ [{ Kind := h.Kind, Name := h.Name, FailureCount := h.FailureCount + 1 }] := by
  cases hk : h.Kind <;> simp [callOf, hk] at hc hforgive <;> subst hc <;>
    simp [TasksRunnerStep, TasksQueue.Peek, hq, hk, herr, hforgive, failBranch,
      TasksQueue.Push, Task.IncrementFailureCount]

/-- A dispatch that pops: the collaborator succeeded, or the task is a hook task with
`AllowFailure`. -/
theorem step_pop (mm : Collaborator) (s : RunnerState) (h : Task) (rest : List Task)
    (c : MMCall) (hq : s.queue.items = h :: rest) (hc : callOf h = some c)
    (hok : mm s.calls c = false ∨
      ((h.Kind = TaskType.ModuleHookRun ∨ h.Kind = TaskType.GlobalHookRun) ∧
        h.AllowFailure = true)) :
    (TasksRunnerStep mm s).queue.items = rest
      ∧ (TasksRunnerStep mm s).calls = s.calls ++ [c]
      ∧ (TasksRunnerStep mm s).slept = s.slept
      ∧ (TasksRunnerStep mm s).logged = s.logged := by
  rcases hok with hok | ⟨hkind, haf⟩
  · cases hk : h.Kind <;> simp [callOf, hk] at hc <;> subst hc <;>
      simp [TasksRunnerStep, TasksQueue.Peek, hq, hk, hok, popBranch, TasksQueue.Pop]
  · rcases hkind with hk | hk <;> simp [callOf, hk] at hc <;> subst hc <;>
      simp [TasksRunnerStep, TasksQueue.Peek, hq, hk, haf, popBranch, TasksQueue.Pop]

/-- The dispatch of a `Delay` head: sleep, then pop. -/
theorem step_delay (mm : Collaborator) (s : RunnerState) (h : Task) (rest : List Task)
    (hq : s.queue.items = h :: rest) (hk : h.Kind = TaskType.Delay) :
    (TasksRunnerStep mm s).queue.items = rest
      ∧ (TasksRunnerStep mm s).calls = s.calls
      ∧ (TasksRunnerStep mm s).slept = s.slept ++ [h.Delay]
      ∧ (TasksRunnerStep mm s).logged = s.logged := by
  simp [TasksRunnerStep, TasksQueue.Peek, hq, hk, popBranch, TasksQueue.Pop]

/-- The retry loop seen every two steps: while the collaborator keeps failing, the queue
comes back to the failed task followed by the tail, and only that task is dispatched. -/
theorem retry_invariant (mm : Collaborator) (s : RunnerState) (h : Task) (tail : List Task)
    (c : MMCall) (k : Nat) (hq : s.queue.items = h :: tail)
    (haf : h.AllowFailure = false) (hc : callOf h = some c)
    (hfail : ∀ j, j < k → mm (s.calls ++ List.replicate j c) c = true) :
    ∀ j, j ≤ k →
      (TasksRunnerSteps mm (2 * j) s).queue.items = h :: tail
        ∧ (TasksRunnerSteps mm (2 * j) s).calls = s.calls ++ List.replicate j c
        ∧ (TasksRunnerSteps mm (2 * j) s).slept = s.slept ++ List.replicate j (5 * Second) := by
  intro j
  induction j with
  | zero => intro _; simp [TasksRunnerSteps, hq]
  | succ j ih =>
    intro hj
    obtain ⟨hi, hcalls, hslept⟩ := ih (by omega)
    have herr : mm (TasksRunnerSteps mm (2 * j) s).calls c = true := by
      rw [hcalls]; exact hfail j (by omega)
    obtain ⟨f1, f2, f3, _⟩ := step_fail mm _ h tail c hi hc herr (Or.inr (Or.inr haf))
    have hd : (NewTaskDelay (if h.Kind = TaskType.GlobalHookRun then FailedHookDelay
        else FailedModuleDelay)).Kind = TaskType.Delay := rfl
    obtain ⟨d1, d2, d3, _⟩ := step_delay mm _ _ (h :: tail) f1 hd
    have e : 2 * (j + 1) = 2 * j + 1 + 1 := by ring
    rw [e, TasksRunnerSteps_succ, TasksRunnerSteps_succ]
    refine ⟨d1, ?_, ?_⟩
    · rw [d2, f2, hcalls, List.replicate_succ', List.append_assoc]
    · rw [d3, f3, hslept, List.replicate_succ', List.append_assoc]
      simp [NewTaskDelay, FailedHookDelay, FailedModuleDelay]

/-! ## Claims about the runner step -/

/-- C1: when the head is a hook task (`ModuleHookRun` or `GlobalHookRun`) with
`AllowFailure = false` and its collaborator call fails, the runner step does not remove
it: the queue becomes one new `Delay` task followed by the whole previous queue, the
delay being `FailedModuleDelay` for `ModuleHookRun` and `FailedHookDelay` for
`GlobalHookRun`, both five seconds. -/
theorem failed_hook_kept_behind_delay (mm : Collaborator) (s : RunnerState) (h : Task)
    (rest : List Task) (c : MMCall) (hq : s.queue.items = h :: rest)
    (hk : h.Kind = TaskType.ModuleHookRun ∨ h.Kind = TaskType.GlobalHookRun)
    (haf : h.AllowFailure = false) (hc : callOf h = some c)
    (herr : mm s.calls c = true) :
    (h.Kind = TaskType.ModuleHookRun →
        (TasksRunnerStep mm s).queue.items = NewTaskDelay FailedModuleDelay :: s.queue.items)
      ∧ (h.Kind = TaskType.GlobalHookRun →
        (TasksRunnerStep mm s).queue.items = NewTaskDelay FailedHookDelay :: s.queue.items)
      ∧ (TasksRunnerStep mm s).queue.items.tail = h :: rest
      ∧ ((TasksRunnerStep mm s).queue.items.head?.map Task.Kind = some TaskType.Delay)
      ∧ ((TasksRunnerStep mm s).queue.items.head?.map Task.Delay = some (5 * Second))
      ∧ FailedModuleDelay = 5 * Second ∧ FailedHookDelay = 5 * Second := by
  obtain ⟨f1, _, _, _⟩ := step_fail mm s h rest c hq hc herr (Or.inr (Or.inr haf))
  refine ⟨?_, ?_, ?_, ?_, ?_, rfl, rfl⟩
  · intro hm; rw [f1, hq]; simp [hm]
  · intro hg; rw [f1, hq]; simp [hg]
  · rw [f1]; rfl
  · rw [f1]; rfl
  · rw [f1]
    rcases hk with hk | hk <;> simp [hk, NewTaskDelay, FailedHookDelay, FailedModuleDelay]

/-- Witness for C1: the hook task of scenario S3 with a collaborator that always fails. -/
theorem failed_hook_kept_behind_delay_witness :
    (TasksRunnerStep (fun _ _ => true) s3Init).queue.items
      = [NewTaskDelay FailedModuleDelay, s3Task] :=
  (failed_hook_kept_behind_delay (fun _ _ => true) s3Init s3Task []
    (MMCall.RunModuleHook "h" (some BindingType.Schedule)) rfl (Or.inl rfl) rfl rfl rfl).1 rfl

/-- C2: when the head is a `ModuleRun`, `ModuleDelete`, `ModuleHookRun` or `GlobalHookRun`
task and its collaborator call succeeds, the runner step pops it: the queue afterwards is
the previous queue without its head, and nothing is slept or pushed. -/
theorem successful_task_popped (mm : Collaborator) (s : RunnerState) (h : Task)
    (rest : List Task) (c : MMCall) (hq : s.queue.items = h :: rest)
    (_hk : h.Kind = TaskType.ModuleRun ∨ h.Kind = TaskType.ModuleDelete ∨
      h.Kind = TaskType.ModuleHookRun ∨ h.Kind = TaskType.GlobalHookRun)
    (hc : callOf h = some c) (hok : mm s.calls c = false) :
    (TasksRunnerStep mm s).queue.items = rest
      ∧ (TasksRunnerStep mm s).queue.items = s.queue.items.tail
      ∧ (TasksRunnerStep mm s).calls = s.calls ++ [c]
      ∧ (TasksRunnerStep mm s).slept = s.slept
      ∧ (TasksRunnerStep mm s).logged = s.logged := by
  obtain ⟨p1, p2, p3, p4⟩ := step_pop mm s h rest c hq hc (Or.inl hok)
  exact ⟨p1, by rw [p1, hq]; rfl, p2, p3, p4⟩

/-- Witness for C2: a `ModuleRun` head followed by another task, the collaborator
succeeding. -/
theorem successful_task_popped_witness :
    (TasksRunnerStep (fun _ _ => false)
      { queue := (NewTasksQueue.Add (NewTask TaskType.ModuleRun "a")).Add s3Task,
        calls := [], slept := [], logged := [] }).queue.items = [s3Task] :=
  (successful_task_popped (fun _ _ => false)
    { queue := (NewTasksQueue.Add (NewTask TaskType.ModuleRun "a")).Add s3Task,
      calls := [], slept := [], logged := [] }
    (NewTask TaskType.ModuleRun "a") [s3Task] (MMCall.RunModule "a") rfl (Or.inl rfl) rfl
    rfl).1

/-- C3: when the head is a `ModuleRun` or `ModuleDelete` task and its collaborator call
fails, the runner step never pops it, whatever its `AllowFailure` field: the queue
becomes `Delay(FailedModuleDelay)` followed by the whole previous queue. -/
theorem failed_module_task_kept (mm : Collaborator) (s : RunnerState) (h : Task)
    (rest : List Task) (c : MMCall) (hq : s.queue.items = h :: rest)
    (hk : h.Kind = TaskType.ModuleRun ∨ h.Kind = TaskType.ModuleDelete)
    (hc : callOf h = some c) (herr : mm s.calls c = true) :
    (TasksRunnerStep mm s).queue.items = NewTaskDelay FailedModuleDelay :: s.queue.items
      ∧ (TasksRunnerStep mm s).queue.items.tail = h :: rest := by
  have hf : h.Kind = TaskType.ModuleRun ∨ h.Kind = TaskType.ModuleDelete ∨
      h.AllowFailure = false := by
    rcases hk with hk | hk
    · exact Or.inl hk
    · exact Or.inr (Or.inl hk)
  obtain ⟨f1, _, _, _⟩ := step_fail mm s h rest c hq hc herr hf
  constructor
  · rw [f1, hq]
    rcases hk with hk | hk <;> simp [hk]
  · rw [f1]; rfl

/-- Witness for C3: a `ModuleDelete` head whose `AllowFailure` is set, the collaborator
failing. -/
theorem failed_module_task_kept_witness :
    (TasksRunnerStep (fun _ _ => true)
      { queue := NewTasksQueue.Add ((NewTask TaskType.ModuleDelete "b").WithAllowFailure true),
        calls := [], slept := [], logged := [] }).queue.items
      = [NewTaskDelay FailedModuleDelay,
          (NewTask TaskType.ModuleDelete "b").WithAllowFailure true] :=
  (failed_module_task_kept (fun _ _ => true)
    { queue := NewTasksQueue.Add ((NewTask TaskType.ModuleDelete "b").WithAllowFailure true),
      calls := [], slept := [], logged := [] }
    ((NewTask TaskType.ModuleDelete "b").WithAllowFailure true) [] (MMCall.DeleteModule "b")
    rfl (Or.inr rfl) rfl rfl).1

/-- C4: when the head is a `ModuleHookRun` or `GlobalHookRun` task with
`AllowFailure = true`, the runner step pops it whether the collaborator call succeeds or
fails: the queue afterwards is the previous tail, nothing is slept, no delay is pushed
and no failure count is incremented or logged. -/
theorem allow_failure_hook_popped (mm : Collaborator) (s : RunnerState) (h : Task)
    (rest : List Task) (hq : s.queue.items = h :: rest)
    (hk : h.Kind = TaskType.ModuleHookRun ∨ h.Kind = TaskType.GlobalHookRun)
    (haf : h.AllowFailure = true) :
    (TasksRunnerStep mm s).queue.items = rest
      ∧ (TasksRunnerStep mm s).slept = s.slept
      ∧ (TasksRunnerStep mm s).logged = s.logged
      ∧ (TasksRunnerStep mm s).queue.trace = s.queue.trace ++ [QueueOp.Pop] := by
  have hc : ∃ c, callOf h = some c := by
    rcases hk with hk | hk <;> simp [callOf, hk]
  obtain ⟨c, hc⟩ := hc
  obtain ⟨p1, _, p3, p4⟩ := step_pop mm s h rest c hq hc (Or.inr ⟨hk, haf⟩)
  refine ⟨p1, p3, p4, ?_⟩
  rcases hk with hk | hk <;>
    simp [TasksRunnerStep, TasksQueue.Peek, hq, hk, haf, popBranch, TasksQueue.Pop]

/-- Witness for C4: scenario S4, `GlobalHookRun(g, Schedule)` with `AllowFailure = true`
and a failing collaborator. -/
theorem allow_failure_hook_popped_witness :
    (TasksRunnerStep (fun _ _ => true)
      { queue := NewTasksQueue.Add (((NewTask TaskType.GlobalHookRun "g").WithBinding
          BindingType.Schedule).WithAllowFailure true),
        calls := [], slept := [], logged := [] }).queue.items = [] :=
  (allow_failure_hook_popped (fun _ _ => true)
    { queue := NewTasksQueue.Add (((NewTask TaskType.GlobalHookRun "g").WithBinding
        BindingType.Schedule).WithAllowFailure true),
      calls := [], slept := [], logged := [] }
    (((NewTask TaskType.GlobalHookRun "g").WithBinding BindingType.Schedule).WithAllowFailure
      true) [] rfl (Or.inr rfl) rfl).1

/-- C5: scenario S3 evaluated on the runner.  The hook task fails twice and then
succeeds; when it is examined for the last time (after four steps) the queued task still
has failure count 0, although each failure logged the count 1 and the claim expects 2. -/
theorem failure_count_lost_in_queue :
    (TasksRunnerSteps failTwice 4 s3Init).queue.Peek = some s3Task
      ∧ s3Task.FailureCount = 0
      ∧ (TasksRunnerSteps failTwice 4 s3Init).queue.items.map Task.FailureCount = [0]
      ∧ (TasksRunnerSteps failTwice 4 s3Init).logged.map FailureLog.FailureCount = [1, 1]
      ∧ (TasksRunnerSteps failTwice 5 s3Init).queue.Pop.1 = none
      ∧ (TasksRunnerSteps failTwice 4 s3Init).queue.Pop.1.map Task.FailureCount = some 0 := by
  decide

/-- C6: when the head is a `Delay` task of any duration, the runner step sleeps for that
duration and pops exactly that task: the queue afterwards is the previous tail, whose
first task is the next head, and no collaborator is called. -/
theorem delay_head_slept_then_popped (mm : Collaborator) (s : RunnerState) (h : Task)
    (rest : List Task) (hq : s.queue.items = h :: rest) (hk : h.Kind = TaskType.Delay) :
    (TasksRunnerStep mm s).slept = s.slept ++ [h.Delay]
      ∧ (TasksRunnerStep mm s).queue.items = rest
      ∧ (TasksRunnerStep mm s).queue.Peek = rest.head?
      ∧ (TasksRunnerStep mm s).calls = s.calls
      ∧ (TasksRunnerStep mm s).queue.trace = s.queue.trace ++ [QueueOp.Pop] := by
  obtain ⟨d1, d2, d3, _⟩ := step_delay mm s h rest hq hk
  refine ⟨d3, d1, ?_, d2, ?_⟩
  · simp [TasksQueue.Peek, d1]
  · simp [TasksRunnerStep, TasksQueue.Peek, hq, hk, popBranch, TasksQueue.Pop]

/-- Witness for C6: a zero `Delay` in front of the task of scenario S3. -/
theorem delay_head_slept_then_popped_witness :
    (TasksRunnerStep failTwice
      { queue := (NewTasksQueue.Add s3Task).Push (NewTaskDelay 0),
        calls := [], slept := [], logged := [] }).slept = [0]
      ∧ (TasksRunnerStep failTwice
      { queue := (NewTasksQueue.Add s3Task).Push (NewTaskDelay 0),
        calls := [], slept := [], logged := [] }).queue.items = [s3Task] :=
  have w := delay_head_slept_then_popped failTwice
    { queue := (NewTasksQueue.Add s3Task).Push (NewTaskDelay 0),
      calls := [], slept := [], logged := [] } (NewTaskDelay 0) [s3Task] rfl rfl
  ⟨w.1, w.2.1⟩

/-- C7: retry in place.  For a head hook task `h` with `AllowFailure = false` whose
collaborator call fails on the first `k` attempts and succeeds on attempt `k + 1`, the
iterated runner step visits `h :: tail` after every even number `2 * j` of steps
(`j ≤ k`) and `Delay(5 s) :: h :: tail` after every odd number `2 * j + 1` (`j < k`);
after exactly `2 * k + 1` steps the queue is `tail`.  All collaborator calls made on the
way are the `k + 1` calls for `h`, and the runner slept `k` times five seconds. -/
theorem retry_in_place (mm : Collaborator) (s : RunnerState) (h : Task) (tail : List Task)
    (c : MMCall) (k : Nat) (hq : s.queue.items = h :: tail)
    (_hk : h.Kind = TaskType.ModuleHookRun ∨ h.Kind = TaskType.GlobalHookRun)
    (haf : h.AllowFailure = false) (hc : callOf h = some c)
    (hfail : ∀ j, j < k → mm (s.calls ++ List.replicate j c) c = true)
    (hsucc : mm (s.calls ++ List.replicate k c) c = false) :
    (∀ j, j ≤ k →
        (TasksRunnerSteps mm (2 * j) s).queue.items = h :: tail
          ∧ (TasksRunnerSteps mm (2 * j) s).calls = s.calls ++ List.replicate j c)
      ∧ (∀ j, j < k →
        (TasksRunnerSteps mm (2 * j + 1) s).queue.items
            = NewTaskDelay (5 * Second) :: h :: tail
          ∧ (TasksRunnerSteps mm (2 * j + 1) s).calls = s.calls ++ List.replicate (j + 1) c)
      ∧ (TasksRunnerSteps mm (2 * k + 1) s).queue.items = tail
      ∧ (TasksRunnerSteps mm (2 * k + 1) s).calls = s.calls ++ List.replicate (k + 1) c
      ∧ (TasksRunnerSteps mm (2 * k + 1) s).slept = s.slept ++ List.replicate k (5 * Second) := by
  have inv := retry_invariant mm s h tail c k hq haf hc hfail
  refine ⟨fun j hj => ⟨(inv j hj).1, (inv j hj).2.1⟩, ?_, ?_⟩
  · intro j hj
    obtain ⟨hi, hcalls, _⟩ := inv j (by omega)
    have herr : mm (TasksRunnerSteps mm (2 * j) s).calls c = true := by
      rw [hcalls]; exact hfail j hj
    obtain ⟨f1, f2, _, _⟩ := step_fail mm _ h tail c hi hc herr (Or.inr (Or.inr haf))
    rw [TasksRunnerSteps_succ]
    constructor
    · rw [f1]; simp [FailedHookDelay, FailedModuleDelay]
    · rw [f2, hcalls, List.replicate_succ', List.append_assoc]
  · obtain ⟨hi, hcalls, hslept⟩ := inv k (le_refl k)
    have hok : mm (TasksRunnerSteps mm (2 * k) s).calls c = false := by
      rw [hcalls]; exact hsucc
    obtain ⟨p1, p2, p3, _⟩ := step_pop mm _ h tail c hi hc (Or.inl hok)
    rw [TasksRunnerSteps_succ]
    refine ⟨p1, ?_, ?_⟩
    · rw [p2, hcalls, List.replicate_succ', List.append_assoc]
    · rw [p3, hslept]

/-- Witness for C7: scenario S3 (`k = 2`) with another task waiting behind the hook. -/
theorem retry_in_place_witness :
    (TasksRunnerSteps failTwice (2 * 2 + 1)
      { queue := (NewTasksQueue.Add s3Task).Add (NewTask TaskType.ModuleRun "a"),
        calls := [], slept := [], logged := [] }).queue.items
      = [NewTask TaskType.ModuleRun "a"] :=
  (retry_in_place failTwice
    { queue := (NewTasksQueue.Add s3Task).Add (NewTask TaskType.ModuleRun "a"),
      calls := [], slept := [], logged := [] }
    s3Task [NewTask TaskType.ModuleRun "a"]
    (MMCall.RunModuleHook "h" (some BindingType.Schedule)) 2 rfl (Or.inl rfl) rfl rfl
    (by decide) (by decide)).2.2.1

/-! ## Facts about the builders -/

theorem addGlobalHookTasks_items (binding : BindingType) (hooks : List String)
    (q : TasksQueue) :
    (addGlobalHookTasks binding hooks q).items = q.items ++ globalHookTasks binding hooks := by
  induction hooks generalizing q with
  | nil => simp [addGlobalHookTasks, globalHookTasks]
  | cons n ns ih =>
    have step : addGlobalHookTasks binding (n :: ns) q
        = addGlobalHookTasks binding ns
            (q.Add ((NewTask TaskType.GlobalHookRun n).WithBinding binding)) := rfl
    rw [step, ih]
    simp [TasksQueue.Add, globalHookTasks]

theorem addModuleRunTasks_items (moduleNames : List String) (q : TasksQueue) :
    (addModuleRunTasks moduleNames q).items = q.items ++ moduleRunTasks moduleNames := by
  induction moduleNames generalizing q with
  | nil => simp [addModuleRunTasks, moduleRunTasks]
  | cons n ns ih =>
    have step : addModuleRunTasks (n :: ns) q
        = addModuleRunTasks ns (q.Add (NewTask TaskType.ModuleRun n)) := rfl
    rw [step, ih]
    simp [TasksQueue.Add, moduleRunTasks]

theorem CreateOnStartupTasks_items (mm : ModuleManager) (q : TasksQueue) :
    (CreateOnStartupTasks mm q).items
      = q.items ++ globalHookTasks BindingType.OnStartup
          (mm.GetGlobalHooksInOrder BindingType.OnStartup).1 := by
  simp [CreateOnStartupTasks, addGlobalHookTasks_items]

theorem CreateReloadAllTasks_items (mm : ModuleManager) (q : TasksQueue) :
    (CreateReloadAllTasks mm q).items
      = q.items
        ++ globalHookTasks BindingType.BeforeAll (mm.GetGlobalHooksInOrder BindingType.BeforeAll).1
        ++ moduleRunTasks mm.GetModuleNamesInOrder
        ++ globalHookTasks BindingType.AfterAll
            (mm.GetGlobalHooksInOrder BindingType.AfterAll).1 := by
  simp [CreateReloadAllTasks, addGlobalHookTasks_items, addModuleRunTasks_items]

/-! ## Claims about the builders -/

/-- C8: for every initial queue `q` and lists `B`, `M`, `A` returned without error by the
module manager, `CreateReloadAllTasks` leaves the queue equal to `q` followed by
`GlobalHookRun(b, BeforeAll)` for each `b` of `B`, then `ModuleRun(m)` for each `m` of
`M`, then `GlobalHookRun(a, AfterAll)` for each `a` of `A`, each in order: the old tasks
are an unchanged front part and the new tasks are contiguous behind them. -/
theorem reload_all_appends_sequence (mm : ModuleManager) (q : TasksQueue)
    (B M A : List String)
    (hB : mm.GetGlobalHooksInOrder BindingType.BeforeAll = (B, false))
    (hM : mm.GetModuleNamesInOrder = M)
    (hA : mm.GetGlobalHooksInOrder BindingType.AfterAll = (A, false)) :
    (CreateReloadAllTasks mm q).items
        = q.items
          ++ (B.map (fun b => (NewTask TaskType.GlobalHookRun b).WithBinding BindingType.BeforeAll)
            ++ M.map (fun m => NewTask TaskType.ModuleRun m)
            ++ A.map (fun a => (NewTask TaskType.GlobalHookRun a).WithBinding BindingType.AfterAll))
      ∧ (CreateReloadAllTasks mm q).items.take q.items.length = q.items
      ∧ (CreateReloadAllTasks mm q).items.length
          = q.items.length + (B.length + M.length + A.length) := by
  have e := CreateReloadAllTasks_items mm q
  rw [hB, hM, hA] at e
  simp only [globalHookTasks, moduleRunTasks] at e
  refine ⟨by rw [e]; simp, by rw [e]; simp, by rw [e]; simp; omega⟩

/-- Witness for C8: scenario S5, the queue holds `ModuleRun(a)` when the reload-all
sequence of `s1Manager` is appended. -/
theorem reload_all_appends_sequence_witness :
    (CreateReloadAllTasks s1Manager (NewTasksQueue.Add (NewTask TaskType.ModuleRun "a"))).items
      = [NewTask TaskType.ModuleRun "a",
          (NewTask TaskType.GlobalHookRun "gb1").WithBinding BindingType.BeforeAll,
          NewTask TaskType.ModuleRun "a", NewTask TaskType.ModuleRun "b",
          (NewTask TaskType.GlobalHookRun "ga1").WithBinding BindingType.AfterAll] :=
  (reload_all_appends_sequence s1Manager (NewTasksQueue.Add (NewTask TaskType.ModuleRun "a"))
    ["gb1"] ["a", "b"] ["ga1"] rfl rfl rfl).1

/-- C9: starting from an empty queue, the startup composition of `Run`
(`CreateOnStartupTasks`, then `CreateReloadAllTasks`) yields exactly
`GlobalHookRun(s, OnStartup)` for each `s` of `S`, then `GlobalHookRun(b, BeforeAll)` for
each `b` of `B`, then `ModuleRun(m)` for each `m` of `M`, then `GlobalHookRun(a, AfterAll)`
for each `a` of `A`, each list in its order. -/
theorem startup_composition_sequence (mm : ModuleManager) (q : TasksQueue)
    (S B M A : List String) (hq : q.items = [])
    (hS : (mm.GetGlobalHooksInOrder BindingType.OnStartup).1 = S)
    (hB : (mm.GetGlobalHooksInOrder BindingType.BeforeAll).1 = B)
    (hM : mm.GetModuleNamesInOrder = M)
    (hA : (mm.GetGlobalHooksInOrder BindingType.AfterAll).1 = A) :
    (Run mm q).items
      = S.map (fun s => (NewTask TaskType.GlobalHookRun s).WithBinding BindingType.OnStartup)
        ++ B.map (fun b => (NewTask TaskType.GlobalHookRun b).WithBinding BindingType.BeforeAll)
        ++ M.map (fun m => NewTask TaskType.ModuleRun m)
        ++ A.map (fun a => (NewTask TaskType.GlobalHookRun a).WithBinding BindingType.AfterAll) := by
  have e : (Run mm q).items
      = (CreateReloadAllTasks mm (CreateOnStartupTasks mm q.ChangesDisable)).items := rfl
  rw [e, CreateReloadAllTasks_items, CreateOnStartupTasks_items, hS, hB, hM, hA]
  simp [TasksQueue.ChangesDisable, hq, globalHookTasks, moduleRunTasks]

/-- Witness for C9: scenario S1, the five tasks queued at startup. -/
theorem startup_composition_sequence_witness :
    (Run s1Manager NewTasksQueue).items
      = [(NewTask TaskType.GlobalHookRun "gs1").WithBinding BindingType.OnStartup,
          (NewTask TaskType.GlobalHookRun "gb1").WithBinding BindingType.BeforeAll,
          NewTask TaskType.ModuleRun "a", NewTask TaskType.ModuleRun "b",
          (NewTask TaskType.GlobalHookRun "ga1").WithBinding BindingType.AfterAll] :=
  startup_composition_sequence s1Manager NewTasksQueue ["gs1"] ["gb1"] ["a", "b"] ["ga1"]
    rfl rfl rfl rfl rfl

/-- C10, as stated, fails: the `BeforeAll` query of `errWithNamesManager` returns an
error, yet `CreateReloadAllTasks` queues a `BeforeAll` task for the name returned with
it, so the result is not the `ModuleRun` tasks followed by the `AfterAll` tasks. -/
theorem failed_query_names_still_queued :
    (errWithNamesManager.GetGlobalHooksInOrder BindingType.BeforeAll).2 = true
      ∧ (CreateReloadAllTasks errWithNamesManager NewTasksQueue).items
          = [(NewTask TaskType.GlobalHookRun "gb1").WithBinding BindingType.BeforeAll,
              NewTask TaskType.ModuleRun "a", NewTask TaskType.ModuleRun "b",
              (NewTask TaskType.GlobalHookRun "ga1").WithBinding BindingType.AfterAll]
      ∧ (CreateReloadAllTasks errWithNamesManager NewTasksQueue).items
          ≠ moduleRunTasks errWithNamesManager.GetModuleNamesInOrder
            ++ globalHookTasks BindingType.AfterAll
                (errWithNamesManager.GetGlobalHooksInOrder BindingType.AfterAll).1 := by
  decide

/-- C10, amended: the builders queue one task per name each query returned, whether or
not the query also returned an error: names returned with an error are queued as on
success (last two conjuncts, for `CreateOnStartupTasks` and `CreateReloadAllTasks`).
Hence a query that fails with an empty list adds no task for its phase (`OnStartup`,
`BeforeAll`, `AfterAll`), and the tasks of the other phases are still added: a failing
`BeforeAll` query with an empty list yields exactly the `ModuleRun` tasks followed by the
`AfterAll` tasks. -/
theorem failed_query_with_empty_list_skips_phase (mm : ModuleManager) (q : TasksQueue) :
    (mm.GetGlobalHooksInOrder BindingType.OnStartup = ([], true) →
        (CreateOnStartupTasks mm q).items = q.items)
      ∧ (mm.GetGlobalHooksInOrder BindingType.BeforeAll = ([], true) →
        (CreateReloadAllTasks mm q).items
          = q.items ++ moduleRunTasks mm.GetModuleNamesInOrder
            ++ globalHookTasks BindingType.AfterAll
                (mm.GetGlobalHooksInOrder BindingType.AfterAll).1)
      ∧ (mm.GetGlobalHooksInOrder BindingType.AfterAll = ([], true) →
        (CreateReloadAllTasks mm q).items
          = q.items
            ++ globalHookTasks BindingType.BeforeAll
                (mm.GetGlobalHooksInOrder BindingType.BeforeAll).1
            ++ moduleRunTasks mm.GetModuleNamesInOrder)
      ∧ (mm.GetGlobalHooksInOrder BindingType.OnStartup = ([], true) →
        (Run mm q).items = (CreateReloadAllTasks mm q).items)
      ∧ (CreateOnStartupTasks mm q).items
          = q.items
            ++ (mm.GetGlobalHooksInOrder BindingType.OnStartup).1.map (fun hookName =>
                (NewTask TaskType.GlobalHookRun hookName).WithBinding BindingType.OnStartup)
      ∧ (CreateReloadAllTasks mm q).items
          = q.items
            ++ (mm.GetGlobalHooksInOrder BindingType.BeforeAll).1.map (fun hookName =>
                (NewTask TaskType.GlobalHookRun hookName).WithBinding BindingType.BeforeAll)
            ++ mm.GetModuleNamesInOrder.map (fun moduleName =>
                NewTask TaskType.ModuleRun moduleName)
            ++ (mm.GetGlobalHooksInOrder BindingType.AfterAll).1.map (fun hookName =>
                (NewTask TaskType.GlobalHookRun hookName).WithBinding BindingType.AfterAll) := by
  refine ⟨?_, ?_, ?_, ?_, ?_, ?_⟩
  · intro h; rw [CreateOnStartupTasks_items, h]; simp [globalHookTasks]
  · intro h; rw [CreateReloadAllTasks_items, h]; simp [globalHookTasks]
  · intro h; rw [CreateReloadAllTasks_items, h]; simp [globalHookTasks]
  · intro h
    have e : (Run mm q).items
        = (CreateReloadAllTasks mm (CreateOnStartupTasks mm q.ChangesDisable)).items := rfl
    rw [e, CreateReloadAllTasks_items, CreateReloadAllTasks_items, CreateOnStartupTasks_items, h]
    simp [globalHookTasks, TasksQueue.ChangesDisable]
  · exact CreateOnStartupTasks_items mm q
  · exact CreateReloadAllTasks_items mm q

/-- Witness for C10, amended: the `BeforeAll` query of `errNoNamesManager` fails with
an empty list, and the modules and the `AfterAll` hook are queued; the `OnStartup` query
of `errStartupManager` fails with the name `gs1`, and the task of `gs1` is queued. -/
theorem failed_query_with_empty_list_skips_phase_witness :
    errNoNamesManager.GetGlobalHooksInOrder BindingType.BeforeAll = ([], true)
      ∧ (CreateReloadAllTasks errNoNamesManager NewTasksQueue).items
          = [NewTask TaskType.ModuleRun "a", NewTask TaskType.ModuleRun "b",
              (NewTask TaskType.GlobalHookRun "ga1").WithBinding BindingType.AfterAll]
      ∧ errStartupManager.GetGlobalHooksInOrder BindingType.OnStartup = (["gs1"], true)
      ∧ (CreateOnStartupTasks errStartupManager NewTasksQueue).items
          = [(NewTask TaskType.GlobalHookRun "gs1").WithBinding BindingType.OnStartup] :=
  ⟨rfl, (failed_query_with_empty_list_skips_phase errNoNamesManager NewTasksQueue).2.1 rfl,
    rfl, (failed_query_with_empty_list_skips_phase errStartupManager NewTasksQueue).2.2.2.2.1⟩

/-! ## Facts about the events handler -/

theorem handleModulesChanged_items (changes : List ModuleChange) (q : TasksQueue) :
    (handleModulesChanged changes q).items
      = q.items ++ changes.map (fun c =>
          match c.ChangeType with
          | ChangeType.Disabled => NewTask TaskType.ModuleDelete c.Name
          | _ => NewTask TaskType.ModuleRun c.Name) := by
  induction changes generalizing q with
  | nil => simp [handleModulesChanged]
  | cons c cs ih =>
    have step : handleModulesChanged (c :: cs) q
        = handleModulesChanged cs (addModuleChangeTask q c) := rfl
    rw [step, ih]
    cases hc : c.ChangeType <;> simp [addModuleChangeTask, hc, TasksQueue.Add]

theorem scheduleLoop_skip (mm : ModuleManager) (pre rest : List ScheduleHook)
    (q : TasksQueue)
    (hpre : ∀ p, p ∈ pre → mm.GetGlobalHook p.Name = false ∧ mm.GetModuleHook p.Name = false) :
    scheduleLoop mm (pre ++ rest) q = scheduleLoop mm rest q := by
  induction pre with
  | nil => rfl
  | cons p ps ih =>
    have hp := hpre p (List.mem_cons_self p ps)
    have e : scheduleLoop mm (p :: (ps ++ rest)) q = scheduleLoop mm (ps ++ rest) q := by
      simp [scheduleLoop, hp.1, hp.2]
    rw [List.cons_append, e]
    exact ih (fun x hx => hpre x (List.mem_cons_of_mem p hx))

theorem scheduleLoop_shape (mm : ModuleManager) (ds : List ScheduleHook) (q : TasksQueue) :
    (scheduleLoop mm ds q).items = q.items
      ∨ ∃ d, d ∈ ds ∧
          ((mm.GetGlobalHook d.Name = true
              ∧ (scheduleLoop mm ds q).items = q.items ++ [scheduleGlobalTask d])
            ∨ (mm.GetGlobalHook d.Name = false ∧ mm.GetModuleHook d.Name = true
              ∧ (scheduleLoop mm ds q).items = q.items ++ [scheduleModuleTask d])) := by
  induction ds with
  | nil => exact Or.inl rfl
  | cons d ds ih =>
    by_cases hg : mm.GetGlobalHook d.Name = true
    · refine Or.inr ⟨d, List.mem_cons_self d ds, Or.inl ⟨hg, ?_⟩⟩
      simp [scheduleLoop, hg, TasksQueue.Add]
    · have hg0 : mm.GetGlobalHook d.Name = false := by simpa using hg
      by_cases hm : mm.GetModuleHook d.Name = true
      · refine Or.inr ⟨d, List.mem_cons_self d ds, Or.inr ⟨hg0, hm, ?_⟩⟩
        simp [scheduleLoop, hg0, hm, TasksQueue.Add]
      · have hm0 : mm.GetModuleHook d.Name = false := by simpa using hm
        have e : scheduleLoop mm (d :: ds) q = scheduleLoop mm ds q := by
          simp [scheduleLoop, hg0, hm0]
        rw [e]
        rcases ih with h | ⟨x, hx, h⟩
        · exact Or.inl h
        · exact Or.inr ⟨x, List.mem_cons_of_mem d hx, h⟩

/-! ## Claims about the events handler -/

/-- C11: for every `ModulesChanged` event with change list `cs` and every queue, the
handler leaves the queue equal to the old queue followed by one task per element of
`cs`, in the order of `cs`: `ModuleRun(name)` for `Enabled` and `Changed`,
`ModuleDelete(name)` for `Disabled`; the length grows by the length of `cs`. -/
theorem modules_changed_one_task_per_change (env : Managers) (st : HandlerState)
    (cs : List ModuleChange) :
    (ManagersEventsHandlerStep env
        (Signal.ModuleEvent { ModulesChanges := cs, Kind := EventType.ModulesChanged })
        st).queue.items
        = st.queue.items ++ cs.map (fun c =>
            match c.ChangeType with
            | ChangeType.Enabled => NewTask TaskType.ModuleRun c.Name
            | ChangeType.Changed => NewTask TaskType.ModuleRun c.Name
            | ChangeType.Disabled => NewTask TaskType.ModuleDelete c.Name)
      ∧ (ManagersEventsHandlerStep env
          (Signal.ModuleEvent { ModulesChanges := cs, Kind := EventType.ModulesChanged })
          st).queue.items.length = st.queue.items.length + cs.length
      ∧ (ManagersEventsHandlerStep env
          (Signal.ModuleEvent { ModulesChanges := s2Changes, Kind := EventType.ModulesChanged })
          { queue := NewTasksQueue, exited := none }).queue.items
        = [NewTask TaskType.ModuleRun "a", NewTask TaskType.ModuleDelete "b"] := by
  have e : (ManagersEventsHandlerStep env
        (Signal.ModuleEvent { ModulesChanges := cs, Kind := EventType.ModulesChanged })
        st).queue.items = (handleModulesChanged cs st.queue).items := rfl
  have f : (fun c : ModuleChange =>
        match c.ChangeType with
        | ChangeType.Disabled => NewTask TaskType.ModuleDelete c.Name
        | _ => NewTask TaskType.ModuleRun c.Name)
      = (fun c : ModuleChange =>
        match c.ChangeType with
        | ChangeType.Enabled => NewTask TaskType.ModuleRun c.Name
        | ChangeType.Changed => NewTask TaskType.ModuleRun c.Name
        | ChangeType.Disabled => NewTask TaskType.ModuleDelete c.Name) := by
    funext c
    cases c.ChangeType <;> rfl
  rw [e, handleModulesChanged_items, f]
  refine ⟨rfl, by simp, rfl⟩

/-- Resolution of schedule descriptors is global first.  On a schedule signal, the
descriptor `d` the loop reaches (no descriptor before it resolves) gives a
`GlobalHookRun` task when its name resolves as a global hook, also when it resolves as a
module hook too, and a `ModuleHookRun` task when it resolves only as a module hook; the
task carries the name of `d`, the binding `Schedule` and the `AllowFailure` of the
schedule config of `d`.  Whatever the registry entry, every task the handler appends has
this form for some descriptor of the entry. -/
theorem schedule_resolution_global_first (env : Managers) (scheduleId : ScheduleIdType)
    (st : HandlerState) (pre post : List ScheduleHook) (d : ScheduleHook)
    (hds : GetScheduleHooks env scheduleId = pre ++ d :: post)
    (hpre : ∀ p, p ∈ pre →
      env.mm.GetGlobalHook p.Name = false ∧ env.mm.GetModuleHook p.Name = false) :
    (env.mm.GetGlobalHook d.Name = true →
        (ManagersEventsHandlerStep env (Signal.ScheduleEvent scheduleId) st).queue.items
          = st.queue.items ++
            [{ Kind := TaskType.GlobalHookRun, Name := d.Name,
               Binding := some BindingType.Schedule, AllowFailure := d.Schedule.AllowFailure,
               FailureCount := 0, Delay := 0 }])
      ∧ (env.mm.GetGlobalHook d.Name = false → env.mm.GetModuleHook d.Name = true →
        (ManagersEventsHandlerStep env (Signal.ScheduleEvent scheduleId) st).queue.items
          = st.queue.items ++
            [{ Kind := TaskType.ModuleHookRun, Name := d.Name,
               Binding := some BindingType.Schedule, AllowFailure := d.Schedule.AllowFailure,
               FailureCount := 0, Delay := 0 }])
      ∧ (∀ t, t ∈ (ManagersEventsHandlerStep env (Signal.ScheduleEvent scheduleId)
            st).queue.items.drop st.queue.items.length →
          ∃ x, x ∈ GetScheduleHooks env scheduleId ∧
            ((env.mm.GetGlobalHook x.Name = true ∧ t = scheduleGlobalTask x)
              ∨ (env.mm.GetGlobalHook x.Name = false ∧ env.mm.GetModuleHook x.Name = true
                ∧ t = scheduleModuleTask x))) := by
  have e : (ManagersEventsHandlerStep env (Signal.ScheduleEvent scheduleId) st).queue
      = scheduleLoop env.mm (GetScheduleHooks env scheduleId) st.queue := rfl
  have skip : scheduleLoop env.mm (GetScheduleHooks env scheduleId) st.queue
      = scheduleLoop env.mm (d :: post) st.queue := by
    rw [hds]; exact scheduleLoop_skip env.mm pre (d :: post) st.queue hpre
  refine ⟨?_, ?_, ?_⟩
  · intro hg
    rw [e, skip]
    simp [scheduleLoop, hg, TasksQueue.Add, scheduleGlobalTask, NewTask, Task.WithBinding,
      Task.WithAllowFailure]
  · intro hg hm
    rw [e, skip]
    simp [scheduleLoop, hg, hm, TasksQueue.Add, scheduleModuleTask, NewTask, Task.WithBinding,
      Task.WithAllowFailure]
  · intro t ht
    rw [e] at ht
    rcases scheduleLoop_shape env.mm (GetScheduleHooks env scheduleId) st.queue with
      h | ⟨x, hx, h⟩
    · rw [h] at ht; simp at ht
    · refine ⟨x, hx, ?_⟩
      rcases h with ⟨hg, hi⟩ | ⟨hg, hm, hi⟩
      · rw [hi] at ht; simp at ht; exact Or.inl ⟨hg, ht⟩
      · rw [hi] at ht; simp at ht; exact Or.inr ⟨hg, hm, ht⟩

/-- Global-first resolution at a registry entry made of an unknown name, then `both` (a
global and a module hook, `AllowFailure` set), then `m1`. -/
theorem schedule_resolution_global_first_witness :
    (ManagersEventsHandlerStep
      (scheduleManagers [descriptor "x" false, descriptor "both" true, descriptor "m1" false])
      (Signal.ScheduleEvent ()) { queue := NewTasksQueue, exited := none }).queue.items
      = [{ Kind := TaskType.GlobalHookRun, Name := "both",
            Binding := some BindingType.Schedule, AllowFailure := true,
            FailureCount := 0, Delay := 0 }] :=
  (schedule_resolution_global_first
    (scheduleManagers [descriptor "x" false, descriptor "both" true, descriptor "m1" false])
    () { queue := NewTasksQueue, exited := none } [descriptor "x" false]
    [descriptor "m1" false] (descriptor "both" true) rfl (by decide)).1 (by decide)

/-- C12: a descriptor that resolves gets no task when an earlier descriptor of the
registry entry resolved.  With the entry `g1`, `both` the name `both` resolves as a
global hook, yet the queue holds the task of `g1` only and no `GlobalHookRun` of `both`.
With the entry `x`, `both`, `m1` the name `m1` resolves only as a module hook, yet the
queue holds the task of `both` only and no `ModuleHookRun` of `m1`. -/
theorem schedule_descriptor_behind_resolved_gets_no_task :
    hookManager.GetGlobalHook "both" = true
      ∧ (ManagersEventsHandlerStep
          (scheduleManagers [descriptor "g1" false, descriptor "both" true])
          (Signal.ScheduleEvent ()) { queue := NewTasksQueue, exited := none }).queue.items
        = [scheduleGlobalTask (descriptor "g1" false)]
      ∧ scheduleGlobalTask (descriptor "both" true) ∉
          (ManagersEventsHandlerStep
            (scheduleManagers [descriptor "g1" false, descriptor "both" true])
            (Signal.ScheduleEvent ()) { queue := NewTasksQueue, exited := none }).queue.items
      ∧ hookManager.GetGlobalHook "m1" = false ∧ hookManager.GetModuleHook "m1" = true
      ∧ (ManagersEventsHandlerStep
          (scheduleManagers
            [descriptor "x" false, descriptor "both" true, descriptor "m1" false])
          (Signal.ScheduleEvent ()) { queue := NewTasksQueue, exited := none }).queue.items
        = [scheduleGlobalTask (descriptor "both" true)]
      ∧ scheduleModuleTask (descriptor "m1" false) ∉
          (ManagersEventsHandlerStep
            (scheduleManagers
              [descriptor "x" false, descriptor "both" true, descriptor "m1" false])
            (Signal.ScheduleEvent ()) { queue := NewTasksQueue, exited := none }).queue.items := by
  decide

/-- C13: a schedule signal whose registry entry is `g1` (a global hook) followed by `m1`
(a module hook).  Both descriptors resolve, yet the handler appends the task of `g1`
only: the loop ends at the first descriptor that resolves. -/
theorem schedule_loop_stops_at_first_resolved :
    hookManager.GetGlobalHook "g1" = true ∧ hookManager.GetModuleHook "m1" = true
      ∧ (ManagersEventsHandlerStep
          (scheduleManagers [descriptor "g1" false, descriptor "m1" false])
          (Signal.ScheduleEvent ()) { queue := NewTasksQueue, exited := none }).queue.items
        = [scheduleGlobalTask (descriptor "g1" false)]
      ∧ (ManagersEventsHandlerStep
          (scheduleManagers [descriptor "g1" false, descriptor "m1" false])
          (Signal.ScheduleEvent ()) { queue := NewTasksQueue, exited := none }).queue.items
        ≠ [scheduleGlobalTask (descriptor "g1" false),
            scheduleModuleTask (descriptor "m1" false)] := by
  decide

/-- C14: for every node-change signal, queue and list `H` of `OnKubeNodeChange` global
hooks returned by the module manager, the handler leaves the queue equal to the old
queue followed by `GlobalHookRun(h, OnKubeNodeChange)` for each `h` of `H` in order, with
`AllowFailure` false and failure count 0. -/
theorem kube_node_changed_tasks (env : Managers) (st : HandlerState) (H : List String)
    (hH : (env.mm.GetGlobalHooksInOrder BindingType.OnKubeNodeChange).1 = H) :
    (ManagersEventsHandlerStep env Signal.KubeNodeChanged st).queue.items
      = st.queue.items ++ H.map (fun h =>
          { Kind := TaskType.GlobalHookRun, Name := h,
            Binding := some BindingType.OnKubeNodeChange, AllowFailure := false,
            FailureCount := 0, Delay := 0 }) := by
  have e : (ManagersEventsHandlerStep env Signal.KubeNodeChanged st).queue.items
      = (addGlobalHookTasks BindingType.OnKubeNodeChange
          (env.mm.GetGlobalHooksInOrder BindingType.OnKubeNodeChange).1
          st.queue.ChangesDisable).items := rfl
  rw [e, addGlobalHookTasks_items, hH]
  simp [TasksQueue.ChangesDisable, globalHookTasks, NewTask, Task.WithBinding]

/-- Witness for C14: the hooks `n1`, `n2` of `hookManager`, behind a queued task. -/
theorem kube_node_changed_tasks_witness :
    (ManagersEventsHandlerStep (scheduleManagers []) Signal.KubeNodeChanged
      { queue := NewTasksQueue.Add s3Task, exited := none }).queue.items
      = [s3Task,
          { Kind := TaskType.GlobalHookRun, Name := "n1",
            Binding := some BindingType.OnKubeNodeChange, AllowFailure := false,
            FailureCount := 0, Delay := 0 },
          { Kind := TaskType.GlobalHookRun, Name := "n2",
            Binding := some BindingType.OnKubeNodeChange, AllowFailure := false,
            FailureCount := 0, Delay := 0 }] :=
  kube_node_changed_tasks (scheduleManagers [])
    { queue := NewTasksQueue.Add s3Task, exited := none } ["n1", "n2"] rfl

/-- C15: `CreateReloadAllTasks` does not deduplicate: if one invocation on the queue `q`
appends the sequence `s`, two consecutive invocations leave `q` followed by `s` twice. -/
theorem reload_all_twice_doubles (mm : ModuleManager) (q : TasksQueue) (s : List Task)
    (h : (CreateReloadAllTasks mm q).items = q.items ++ s) :
    (CreateReloadAllTasks mm (CreateReloadAllTasks mm q)).items = q.items ++ s ++ s := by
  have e1 := CreateReloadAllTasks_items mm q
  have e2 := CreateReloadAllTasks_items mm (CreateReloadAllTasks mm q)
  rw [h] at e1
  simp only [List.append_assoc] at e1 e2
  have hs := List.append_cancel_left e1
  rw [e2, h, hs]

/-- Witness for C15: the reload-all sequence of scenario S1 queued twice behind
`ModuleRun(a)`. -/
theorem reload_all_twice_doubles_witness :
    (CreateReloadAllTasks s1Manager (CreateReloadAllTasks s1Manager
      (NewTasksQueue.Add (NewTask TaskType.ModuleRun "a")))).items
      = (NewTasksQueue.Add (NewTask TaskType.ModuleRun "a")).items
        ++ [(NewTask TaskType.GlobalHookRun "gb1").WithBinding BindingType.BeforeAll,
            NewTask TaskType.ModuleRun "a", NewTask TaskType.ModuleRun "b",
            (NewTask TaskType.GlobalHookRun "ga1").WithBinding BindingType.AfterAll]
        ++ [(NewTask TaskType.GlobalHookRun "gb1").WithBinding BindingType.BeforeAll,
            NewTask TaskType.ModuleRun "a", NewTask TaskType.ModuleRun "b",
            (NewTask TaskType.GlobalHookRun "ga1").WithBinding BindingType.AfterAll] :=
  reload_all_twice_doubles s1Manager (NewTasksQueue.Add (NewTask TaskType.ModuleRun "a"))
    [(NewTask TaskType.GlobalHookRun "gb1").WithBinding BindingType.BeforeAll,
      NewTask TaskType.ModuleRun "a", NewTask TaskType.ModuleRun "b",
      (NewTask TaskType.GlobalHookRun "ga1").WithBinding BindingType.AfterAll] rfl

/-! ## Frame and drain of the runner -/

theorem step_shape (mm : Collaborator) (s : RunnerState) (h : Task) (rest : List Task)
    (hq : s.queue.items = h :: rest) :
    (TasksRunnerStep mm s).queue.items = rest
      ∨ ∃ d, (TasksRunnerStep mm s).queue.items = NewTaskDelay d :: h :: rest := by
  cases hc : callOf h with
  | none =>
    have hk : h.Kind = TaskType.Delay := by
      cases hk : h.Kind <;> simp [callOf, hk] at hc
      rfl
    exact Or.inl (step_delay mm s h rest hq hk).1
  | some c =>
    by_cases herr : mm s.calls c = true
    · by_cases hf : h.Kind = TaskType.ModuleRun ∨ h.Kind = TaskType.ModuleDelete ∨
          h.AllowFailure = false
      · exact Or.inr ⟨_, (step_fail mm s h rest c hq hc herr hf).1⟩
      · have hk : (h.Kind = TaskType.ModuleHookRun ∨ h.Kind = TaskType.GlobalHookRun)
            ∧ h.AllowFailure = true := by
          cases hk : h.Kind <;> simp [callOf, hk] at hc hf ⊢ <;> exact hf
        exact Or.inl (step_pop mm s h rest c hq hc (Or.inr hk)).1
    · have hok : mm s.calls c = false := by simpa using herr
      exact Or.inl (step_pop mm s h rest c hq hc (Or.inl hok)).1

/-- C17: every runner step on a non-empty queue changes the queue in exactly one of two
ways: either the result is the old queue without its head, or it is one new `Delay` task
followed by the whole old queue.  So no other task is inserted, and the tasks behind the
head keep their order and all their fields. -/
theorem runner_step_frame (mm : Collaborator) (s : RunnerState)
    (hne : s.queue.items ≠ []) :
    ((TasksRunnerStep mm s).queue.items = s.queue.items.tail
        ∧ ¬ ∃ t, (TasksRunnerStep mm s).queue.items = t :: s.queue.items)
      ∨ ((∃ d, (TasksRunnerStep mm s).queue.items = NewTaskDelay d :: s.queue.items)
        ∧ (TasksRunnerStep mm s).queue.items ≠ s.queue.items.tail) := by
  cases hq : s.queue.items with
  | nil => exact absurd hq hne
  | cons h rest =>
    rcases step_shape mm s h rest hq with hp | ⟨d, hd⟩
    · refine Or.inl ⟨by rw [hp]; rfl, ?_⟩
      rintro ⟨t, ht⟩
      rw [hp] at ht
      have := congrArg List.length ht
      simp at this
      omega
    · refine Or.inr ⟨⟨d, hd⟩, ?_⟩
      intro ht
      rw [hd] at ht
      have := congrArg List.length ht
      simp at this
      omega

/-- Witness for C17: the failing hook task of scenario S3 gets a `Delay` in front. -/
theorem runner_step_frame_witness :
    ((TasksRunnerStep failTwice s3Init).queue.items = s3Init.queue.items.tail
        ∧ ¬ ∃ t, (TasksRunnerStep failTwice s3Init).queue.items = t :: s3Init.queue.items)
      ∨ ((∃ d, (TasksRunnerStep failTwice s3Init).queue.items
            = NewTaskDelay d :: s3Init.queue.items)
        ∧ (TasksRunnerStep failTwice s3Init).queue.items ≠ s3Init.queue.items.tail) :=
  runner_step_frame failTwice s3Init (by decide)

theorem callOf_of_not_delay (t : Task) (h : t.Kind ≠ TaskType.Delay) :
    ∃ c, callOf t = some c := by
  cases hk : t.Kind <;> simp [callOf, hk] at h ⊢

theorem steps_drain (mm : Collaborator) (hsucc : ∀ history c, mm history c = false) :
    ∀ (j : Nat) (items : List Task) (s : RunnerState), s.queue.items = items →
      (∀ t, t ∈ items → t.Kind ≠ TaskType.Delay) → j ≤ items.length →
      (TasksRunnerSteps mm j s).queue.items = items.drop j
        ∧ (TasksRunnerSteps mm j s).calls = s.calls ++ (items.take j).filterMap callOf
        ∧ (TasksRunnerSteps mm j s).slept = s.slept
        ∧ (TasksRunnerSteps mm j s).logged = s.logged := by
  intro j
  induction j with
  | zero => intro items s hq _ _; simp [TasksRunnerSteps, hq]
  | succ j ih =>
    intro items s hq hnd hj
    cases items with
    | nil => simp at hj
    | cons h rest =>
      obtain ⟨c, hc⟩ := callOf_of_not_delay h (hnd h (List.mem_cons_self h rest))
      obtain ⟨p1, p2, p3, p4⟩ := step_pop mm s h rest c hq hc (Or.inl (hsucc _ _))
      have hj2 : j ≤ rest.length := by simpa using hj
      obtain ⟨i1, i2, i3, i4⟩ := ih rest (TasksRunnerStep mm s) p1
        (fun t ht => hnd t (List.mem_cons_of_mem h ht)) hj2
      have e : TasksRunnerSteps mm (j + 1) s = TasksRunnerSteps mm j (TasksRunnerStep mm s) :=
        rfl
      rw [e]
      refine ⟨by rw [i1]; rfl, ?_, by rw [i3, p3], by rw [i4, p4]⟩
      rw [i2, p2]
      simp [List.filterMap_cons, hc]

theorem inner_eq_steps (mm : Collaborator) (hsucc : ∀ history c, mm history c = false) :
    ∀ (items : List Task) (s : RunnerState) (fuel : Nat), s.queue.items = items →
      (∀ t, t ∈ items → t.Kind ≠ TaskType.Delay) → items.length ≤ fuel →
      TasksRunnerInner mm fuel s = TasksRunnerSteps mm items.length s := by
  intro items
  induction items with
  | nil =>
    intro s fuel hq _ _
    cases fuel with
    | zero => rfl
    | succ f => simp [TasksRunnerInner, TasksRunnerSteps, TasksQueue.Peek, hq]
  | cons h rest ih =>
    intro s fuel hq hnd hf
    cases fuel with
    | zero => simp at hf
    | succ f =>
      obtain ⟨c, hc⟩ := callOf_of_not_delay h (hnd h (List.mem_cons_self h rest))
      obtain ⟨p1, _, _, _⟩ := step_pop mm s h rest c hq hc (Or.inl (hsucc _ _))
      have e : TasksRunnerSteps mm (h :: rest).length s
          = TasksRunnerSteps mm rest.length (TasksRunnerStep mm s) := rfl
      have hf2 : rest.length ≤ f := by simpa using hf
      have hrec := ih (TasksRunnerStep mm s) f p1
        (fun t ht => hnd t (List.mem_cons_of_mem h ht)) hf2
      rw [e]
      cases hr : rest with
      | nil =>
        subst hr
        simp [TasksRunnerInner, TasksQueue.Peek, hq, TasksQueue.IsEmpty, p1, TasksRunnerSteps]
      | cons r rs =>
        rw [hr] at p1 hrec
        simp only [TasksRunnerInner, TasksQueue.Peek, hq, List.head?_cons, TasksQueue.IsEmpty,
          p1, List.isEmpty_cons]
        simpa using hrec

/-- C18: for a queue of `n` tasks none of which is a `Delay`, and a collaborator that
succeeds on every call, the inner drain loop of `TasksRunner` (with any bound of at
least `n` rounds) ends after exactly `n` dispatches: it equals `n` runner steps, the
queue is not empty before any of them and empty afterwards, and the collaborator was
called once per task, in queue order, with the call of that task (`callOf`: its name,
and its binding for hook tasks); nothing was slept or logged. -/
theorem drain_all_successful (mm : Collaborator) (s : RunnerState) (fuel : Nat)
    (hnd : ∀ t, t ∈ s.queue.items → t.Kind ≠ TaskType.Delay)
    (hsucc : ∀ history c, mm history c = false)
    (hfuel : s.queue.items.length ≤ fuel) :
    TasksRunnerInner mm fuel s = TasksRunnerSteps mm s.queue.items.length s
      ∧ (∀ j, j < s.queue.items.length → (TasksRunnerSteps mm j s).queue.items ≠ [])
      ∧ (TasksRunnerInner mm fuel s).queue.items = []
      ∧ (TasksRunnerInner mm fuel s).calls = s.calls ++ s.queue.items.filterMap callOf
      ∧ (s.queue.items.filterMap callOf).length = s.queue.items.length
      ∧ s.queue.items.map callOf
          = s.queue.items.map (fun t =>
              match t.Kind with
              | TaskType.ModuleRun => some (MMCall.RunModule t.Name)
              | TaskType.ModuleDelete => some (MMCall.DeleteModule t.Name)
              | TaskType.ModuleHookRun => some (MMCall.RunModuleHook t.Name t.Binding)
              | TaskType.GlobalHookRun => some (MMCall.RunGlobalHook t.Name t.Binding)
              | TaskType.Delay => none)
      ∧ (TasksRunnerInner mm fuel s).slept = s.slept
      ∧ (TasksRunnerInner mm fuel s).logged = s.logged := by
  have he := inner_eq_steps mm hsucc s.queue.items s fuel rfl hnd hfuel
  obtain ⟨d1, d2, d3, d4⟩ :=
    steps_drain mm hsucc s.queue.items.length s.queue.items s rfl hnd (le_refl _)
  have hlen : ∀ items : List Task, (∀ t, t ∈ items → t.Kind ≠ TaskType.Delay) →
      (items.filterMap callOf).length = items.length := by
    intro items
    induction items with
    | nil => intro _; rfl
    | cons h rest ih =>
      intro hn
      obtain ⟨c, hc⟩ := callOf_of_not_delay h (hn h (List.mem_cons_self h rest))
      simp [List.filterMap_cons, hc, ih (fun t ht => hn t (List.mem_cons_of_mem h ht))]
  refine ⟨he, ?_, ?_, ?_, hlen _ hnd, rfl, ?_, ?_⟩
  · intro j hj
    obtain ⟨e1, _, _, _⟩ := steps_drain mm hsucc j s.queue.items s rfl hnd (le_of_lt hj)
    rw [e1]
    intro h0
    have := congrArg List.length h0
    simp at this
    omega
  · rw [he, d1]; simp
  · rw [he, d2]; simp
  · rw [he, d3]
  · rw [he, d4]

/-- Witness for C18: three tasks drained with a bound of five rounds; the collaborator
is called for each of them in queue order. -/
theorem drain_all_successful_witness :
    (TasksRunnerInner (fun _ _ => false) 5
      { queue := ((NewTasksQueue.Add (NewTask TaskType.ModuleRun "a")).Add s3Task).Add
          (NewTask TaskType.ModuleDelete "b"),
        calls := [], slept := [], logged := [] }).calls
      = [MMCall.RunModule "a", MMCall.RunModuleHook "h" (some BindingType.Schedule),
          MMCall.DeleteModule "b"] :=
  (drain_all_successful (fun _ _ => false)
    { queue := ((NewTasksQueue.Add (NewTask TaskType.ModuleRun "a")).Add s3Task).Add
        (NewTask TaskType.ModuleDelete "b"),
      calls := [], slept := [], logged := [] } 5 (by decide) (fun _ _ => rfl)
    (by decide)).2.2.2.1

/-! ## Gating discipline -/

theorem addGlobalHookTasks_trace (binding : BindingType) (hooks : List String)
    (q : TasksQueue) :
    (addGlobalHookTasks binding hooks q).trace
        = q.trace ++ (globalHookTasks binding hooks).map QueueOp.Add
      ∧ (addGlobalHookTasks binding hooks q).changesEnabled = q.changesEnabled := by
  induction hooks generalizing q with
  | nil => simp [addGlobalHookTasks, globalHookTasks]
  | cons n ns ih =>
    have step : addGlobalHookTasks binding (n :: ns) q
        = addGlobalHookTasks binding ns
            (q.Add ((NewTask TaskType.GlobalHookRun n).WithBinding binding)) := rfl
    rw [step, (ih _).1, (ih _).2]
    simp [TasksQueue.Add, globalHookTasks]

theorem addModuleRunTasks_trace (moduleNames : List String) (q : TasksQueue) :
    (addModuleRunTasks moduleNames q).trace
        = q.trace ++ (moduleRunTasks moduleNames).map QueueOp.Add
      ∧ (addModuleRunTasks moduleNames q).changesEnabled = q.changesEnabled := by
  induction moduleNames generalizing q with
  | nil => simp [addModuleRunTasks, moduleRunTasks]
  | cons n ns ih =>
    have step : addModuleRunTasks (n :: ns) q
        = addModuleRunTasks ns (q.Add (NewTask TaskType.ModuleRun n)) := rfl
    rw [step, (ih _).1, (ih _).2]
    simp [TasksQueue.Add, moduleRunTasks]

theorem CreateReloadAllTasks_trace (mm : ModuleManager) (q : TasksQueue) :
    (CreateReloadAllTasks mm q).trace
      = q.trace ++ (globalHookTasks BindingType.BeforeAll
            (mm.GetGlobalHooksInOrder BindingType.BeforeAll).1
          ++ moduleRunTasks mm.GetModuleNamesInOrder
          ++ globalHookTasks BindingType.AfterAll
            (mm.GetGlobalHooksInOrder BindingType.AfterAll).1).map QueueOp.Add := by
  simp [CreateReloadAllTasks, addGlobalHookTasks_trace, addModuleRunTasks_trace]

theorem handleModulesChanged_trace (changes : List ModuleChange) (q : TasksQueue) :
    (handleModulesChanged changes q).trace
        = q.trace ++ ((handleModulesChanged changes q).items.drop q.items.length).map QueueOp.Add
      ∧ (handleModulesChanged changes q).changesEnabled = q.changesEnabled := by
  induction changes generalizing q with
  | nil => simp [handleModulesChanged]
  | cons c cs ih =>
    have step : handleModulesChanged (c :: cs) q
        = handleModulesChanged cs (addModuleChangeTask q c) := rfl
    rw [step, (ih _).1, (ih _).2]
    have hi := handleModulesChanged_items cs (addModuleChangeTask q c)
    rw [hi]
    cases hc : c.ChangeType <;>
      simp [addModuleChangeTask, hc, TasksQueue.Add, List.drop_append, List.drop_left']

/-- C19: gating discipline, read on the trace of queue operations.  The startup
composition of `Run`, the `GlobalChanged` handler and the node-change handler each emit
`ChangesDisable`, then only `Add` operations (one per queued task), then
`ChangesEnable(true)`, and leave changes enabled, whatever the module-manager queries
returned, errors included.  The `ModulesChanged` handler emits only `Add` operations
and leaves the gate as it was. -/
theorem gating_discipline (env : Managers) (st : HandlerState) (cs : List ModuleChange) :
    (Run env.mm st.queue).trace
        = st.queue.trace ++ [QueueOp.ChangesDisable]
          ++ ((Run env.mm st.queue).items.drop st.queue.items.length).map QueueOp.Add
          ++ [QueueOp.ChangesEnable true]
      ∧ (Run env.mm st.queue).changesEnabled = true
      ∧ (ManagersEventsHandlerStep env
            (Signal.ModuleEvent { ModulesChanges := cs, Kind := EventType.GlobalChanged })
            st).queue.trace
          = st.queue.trace ++ [QueueOp.ChangesDisable]
            ++ ((ManagersEventsHandlerStep env
                (Signal.ModuleEvent { ModulesChanges := cs, Kind := EventType.GlobalChanged })
                st).queue.items.drop st.queue.items.length).map QueueOp.Add
            ++ [QueueOp.ChangesEnable true]
      ∧ (ManagersEventsHandlerStep env
            (Signal.ModuleEvent { ModulesChanges := cs, Kind := EventType.GlobalChanged })
            st).queue.changesEnabled = true
      ∧ (ManagersEventsHandlerStep env Signal.KubeNodeChanged st).queue.trace
          = st.queue.trace ++ [QueueOp.ChangesDisable]
            ++ ((ManagersEventsHandlerStep env Signal.KubeNodeChanged
                st).queue.items.drop st.queue.items.length).map QueueOp.Add
            ++ [QueueOp.ChangesEnable true]
      ∧ (ManagersEventsHandlerStep env Signal.KubeNodeChanged st).queue.changesEnabled = true
      ∧ (ManagersEventsHandlerStep env
            (Signal.ModuleEvent { ModulesChanges := cs, Kind := EventType.ModulesChanged })
            st).queue.trace
          = st.queue.trace
            ++ ((ManagersEventsHandlerStep env
                (Signal.ModuleEvent { ModulesChanges := cs, Kind := EventType.ModulesChanged })
                st).queue.items.drop st.queue.items.length).map QueueOp.Add
      ∧ (ManagersEventsHandlerStep env
            (Signal.ModuleEvent { ModulesChanges := cs, Kind := EventType.ModulesChanged })
            st).queue.changesEnabled = st.queue.changesEnabled := by
  refine ⟨?_, rfl, ?_, rfl, ?_, rfl, ?_, ?_⟩
  · have e : (Run env.mm st.queue).trace
        = (CreateReloadAllTasks env.mm (CreateOnStartupTasks env.mm
            st.queue.ChangesDisable)).trace ++ [QueueOp.ChangesEnable true] := rfl
    have ei : (Run env.mm st.queue).items
        = (CreateReloadAllTasks env.mm (CreateOnStartupTasks env.mm
            st.queue.ChangesDisable)).items := rfl
    rw [e, ei, CreateReloadAllTasks_trace, CreateReloadAllTasks_items,
      CreateOnStartupTasks_items]
    simp [CreateOnStartupTasks, addGlobalHookTasks_trace, TasksQueue.ChangesDisable,
      List.drop_append, List.drop_left']
  · have e : (ManagersEventsHandlerStep env
          (Signal.ModuleEvent { ModulesChanges := cs, Kind := EventType.GlobalChanged })
          st).queue = (CreateReloadAllTasks env.mm st.queue.ChangesDisable).ChangesEnable true :=
      rfl
    rw [e]
    simp [TasksQueue.ChangesEnable, CreateReloadAllTasks_trace, CreateReloadAllTasks_items,
      TasksQueue.ChangesDisable, List.drop_append, List.drop_left']
  · have e : (ManagersEventsHandlerStep env Signal.KubeNodeChanged st).queue
        = (addGlobalHookTasks BindingType.OnKubeNodeChange
            (env.mm.GetGlobalHooksInOrder BindingType.OnKubeNodeChange).1
            st.queue.ChangesDisable).ChangesEnable true := rfl
    rw [e]
    simp [TasksQueue.ChangesEnable, addGlobalHookTasks_trace, addGlobalHookTasks_items,
      TasksQueue.ChangesDisable, List.drop_append, List.drop_left']
  · exact (handleModulesChanged_trace cs st.queue).1
  · exact (handleModulesChanged_trace cs st.queue).2

end Operator

namespace merge_values

/-! ### Reading and writing maps -/

theorem index_assign (m : Values) (k k1 : Key) (v : Value) :
    index (assign m k v) k1 = if k = k1 then some v else index m k1 := by
  induction m with
  | nil => simp [assign, index]
  | cons e rest ih =>
    obtain ⟨k0, v0⟩ := e
    by_cases h : k0 = k
    · subst h
      by_cases h1 : k0 = k1 <;> simp [assign, index, h1]
    · by_cases h1 : k0 = k1
      · subst h1
        simp [assign, index, h, Ne.symm h]
      · simp [assign, index, h, h1, ih]

theorem index_update (m : Values) (k k1 : Key) (g : Value → Value) :
    index (update m k g) k1 = if k = k1 then (index m k1).map g else index m k1 := by
  induction m with
  | nil => simp [update, index]
  | cons e rest ih =>
    obtain ⟨k0, v0⟩ := e
    by_cases h : k0 = k
    · subst h
      by_cases h1 : k0 = k1 <;> simp [update, index, h1]
    · by_cases h1 : k0 = k1
      · subst h1
        simp [update, index, h, Ne.symm h]
      · simp [update, index, h, h1, ih]

theorem update_update (m : Values) (k : Key) (f g : Value → Value) :
    update (update m k f) k g = update m k (fun v => g (f v)) := by
  induction m with
  | nil => rfl
  | cons e rest ih =>
    obtain ⟨k0, v0⟩ := e
    by_cases h : k0 = k <;> simp [update, h, ih]

theorem update_comm (m : Values) (k1 k2 : Key) (f g : Value → Value) (h : k1 ≠ k2) :
    update (update m k1 f) k2 g = update (update m k2 g) k1 f := by
  induction m with
  | nil => rfl
  | cons e rest ih =>
    obtain ⟨k0, v0⟩ := e
    by_cases h1 : k0 = k1
    · subst h1
      simp [update, h]
    · by_cases h2 : k0 = k2
      · subst h2
        simp [update, h1]
      · simp [update, h1, h2, ih]

theorem update_assign_same (m : Values) (k : Key) (v : Value) (g : Value → Value) :
    update (assign m k v) k g = assign m k (g v) := by
  induction m with
  | nil => simp [assign, update]
  | cons e rest ih =>
    obtain ⟨k0, v0⟩ := e
    by_cases h : k0 = k <;> simp [assign, update, h, ih]

theorem update_assign_comm (m : Values) (k k1 : Key) (v : Value) (g : Value → Value)
    (h : k ≠ k1) :
    update (assign m k1 v) k g = assign (update m k g) k1 v := by
  induction m with
  | nil => simp [assign, update, Ne.symm h]
  | cons e rest ih =>
    obtain ⟨k0, v0⟩ := e
    by_cases h0 : k0 = k
    · subst h0
      simp [assign, update, h]
    · by_cases h1 : k0 = k1
      · subst h1
        simp [assign, update, h0]
      · simp [assign, update, h0, h1, ih]

theorem update_congr (m : Values) (k : Key) (f g : Value → Value)
    (h : ∀ v, index m k = some v → f v = g v) : update m k f = update m k g := by
  induction m with
  | nil => rfl
  | cons e rest ih =>
    obtain ⟨k0, v0⟩ := e
    by_cases h0 : k0 = k
    · subst h0
      have := h v0 (by simp [index])
      simp [update, this]
    · have hr : ∀ v, index rest k = some v → f v = g v := by
        intro v hv
        exact h v (by simp [index, h0, hv])
      simp [update, h0, ih hr]


/-! ### Maps reached by a path -/

theorem getAt_modifyAt (f : Values → Values) (p : List Key) :
    ∀ r : Values, getAt (modifyAt f r p) p = (getAt r p).map f := by
  induction p with
  | nil => intro r; rfl
  | cons k ks ih =>
    intro r
    simp only [modifyAt, getAt, index_update, if_true]
    cases h : index r k with
    | none => rfl
    | some v => cases v <;> simp [liftMap, ih]

theorem modifyAt_modifyAt (f g : Values → Values) (p : List Key) :
    ∀ r : Values, modifyAt g (modifyAt f r p) p = modifyAt (fun a => g (f a)) r p := by
  induction p with
  | nil => intro r; rfl
  | cons k ks ih =>
    intro r
    simp only [modifyAt, update_update]
    apply update_congr
    intro v _
    cases v <;> simp [liftMap, ih]

theorem modifyAt_append (f : Values → Values) (p q : List Key) :
    ∀ r : Values, modifyAt f r (p ++ q) = modifyAt (fun m => modifyAt f m q) r p := by
  induction p with
  | nil => intro r; rfl
  | cons k ks ih =>
    intro r
    simp only [List.cons_append, modifyAt]
    apply update_congr
    intro v _
    cases v <;> simp [liftMap, ih]

theorem modifyAt_congr (f g : Values → Values) (p : List Key) :
    ∀ (r a : Values), getAt r p = some a → f a = g a → modifyAt f r p = modifyAt g r p := by
  induction p with
  | nil =>
    intro r a h hfg
    simp only [getAt, Option.some.injEq] at h
    subst h
    exact hfg
  | cons k ks ih =>
    intro r a h hfg
    simp only [modifyAt]
    apply update_congr
    intro v hv
    simp only [getAt, hv] at h
    cases v <;> simp at h
    simp [liftMap, ih _ a h hfg]

theorem getAt_append (p q : List Key) :
    ∀ r : Values, getAt r (p ++ q) = (getAt r p).bind (fun a => getAt a q) := by
  induction p with
  | nil => intro r; rfl
  | cons k ks ih =>
    intro r
    simp only [List.cons_append, getAt]
    cases h : index r k with
    | none => rfl
    | some v => cases v <;> simp [ih]

theorem getAt_modifyAt_diverge (f : Values → Values) (p q : List Key) (h : Diverge p q) :
    ∀ r : Values, getAt (modifyAt f r p) q = getAt r q := by
  obtain ⟨c, k1, k2, t1, t2, hp, hq, hne⟩ := h
  subst hp hq
  induction c with
  | nil =>
    intro r
    simp [modifyAt, getAt, index_update, hne]
  | cons k ks ih =>
    intro r
    simp only [List.cons_append, modifyAt, getAt, index_update, if_true]
    cases h : index r k with
    | none => rfl
    | some v => cases v <;> simp [liftMap, ih]

theorem modifyAt_comm (f g : Values → Values) (p q : List Key) (h : Diverge p q)
    (r : Values) : modifyAt g (modifyAt f r p) q = modifyAt f (modifyAt g r q) p := by
  obtain ⟨c, k1, k2, t1, t2, hp, hq, hne⟩ := h
  subst hp hq
  rw [modifyAt_append f c, modifyAt_append g c, modifyAt_append g c, modifyAt_append f c,
    modifyAt_modifyAt, modifyAt_modifyAt]
  congr 1
  funext m
  simp only [modifyAt]
  exact update_comm m k1 k2 _ _ hne


/-! ### Valid maps -/

theorem validMap_cons (k : Key) (v : Value) (rest : Values) :
    validMap ((k, v) :: rest) = true ↔
      validValue v = true ∧ k ∉ keys rest ∧ validMap rest = true := by
  simp [validMap, and_assoc]

theorem validMap_nodup (m : Values) (h : validMap m = true) : (keys m).Nodup := by
  induction m with
  | nil => simp [keys]
  | cons e rest ih =>
    obtain ⟨k, v⟩ := e
    obtain ⟨_, hk, hr⟩ := (validMap_cons k v rest).1 h
    have : keys ((k, v) :: rest) = k :: keys rest := rfl
    rw [this, List.nodup_cons]
    exact ⟨hk, ih hr⟩

theorem validMap_index (m : Values) (k : Key) (v : Value) (h : validMap m = true)
    (hi : index m k = some v) : validValue v = true := by
  induction m with
  | nil => simp [index] at hi
  | cons e rest ih =>
    obtain ⟨k0, v0⟩ := e
    obtain ⟨hv, _, hr⟩ := (validMap_cons k0 v0 rest).1 h
    by_cases h0 : k0 = k
    · simp [index, h0] at hi
      subst hi
      exact hv
    · simp [index, h0] at hi
      exact ih hr hi

theorem index_of_not_mem (m : Values) (k : Key) (h : k ∉ keys m) : index m k = none := by
  induction m with
  | nil => rfl
  | cons e rest ih =>
    obtain ⟨k0, v0⟩ := e
    have hk : keys ((k0, v0) :: rest) = k0 :: keys rest := rfl
    rw [hk, List.mem_cons, not_or] at h
    simp [index, Ne.symm h.1, ih h.2]

theorem assign_of_not_mem (m : Values) (k : Key) (v : Value) (h : k ∉ keys m) :
    assign m k v = m ++ [(k, v)] := by
  induction m with
  | nil => rfl
  | cons e rest ih =>
    obtain ⟨k0, v0⟩ := e
    have hk : keys ((k0, v0) :: rest) = k0 :: keys rest := rfl
    rw [hk, List.mem_cons, not_or] at h
    simp [assign, Ne.symm h.1, ih h.2]

theorem foldl_assign_append (m acc : Values) (hn : (keys m).Nodup)
    (hd : ∀ k, k ∈ keys m → k ∉ keys acc) :
    m.foldl (fun r e => assign r e.1 e.2) acc = acc ++ m := by
  induction m generalizing acc with
  | nil => simp
  | cons e rest ih =>
    obtain ⟨k, v⟩ := e
    have hk : keys ((k, v) :: rest) = k :: keys rest := rfl
    rw [hk, List.nodup_cons] at hn
    rw [hk] at hd
    simp only [List.foldl_cons]
    rw [assign_of_not_mem acc k v (hd k (List.mem_cons_self k _)), ih _ hn.2]
    · simp
    · intro k1 hk1
      have h1 := hd k1 (List.mem_cons_of_mem k hk1)
      simp only [keys, List.map_append, List.map_cons, List.map_nil, List.mem_append,
        List.mem_singleton, not_or]
      refine ⟨h1, ?_⟩
      rintro rfl
      exact hn.1 hk1

theorem copyMap_eq (m : Values) (h : (keys m).Nodup) : copyMap m = m := by
  have := foldl_assign_append m [] h (by simp [keys])
  simpa [copyMap] using this


/-! ### One pair of the queue -/

theorem update_id (m : Values) (k : Key) (g : Value → Value)
    (h : ∀ v, index m k = some v → g v = v) : update m k g = m := by
  induction m with
  | nil => rfl
  | cons e rest ih =>
    obtain ⟨k0, v0⟩ := e
    by_cases h0 : k0 = k
    · subst h0
      have := h v0 (by simp [index])
      simp [update, this]
    · have hr : ∀ v, index rest k = some v → g v = v := by
        intro v hv
        exact h v (by simp [index, h0, hv])
      simp [update, h0, ih hr]

theorem modifyAt_id (p : List Key) : ∀ r : Values, modifyAt (fun a => a) r p = r := by
  induction p with
  | nil => intro r; rfl
  | cons k ks ih =>
    intro r
    simp only [modifyAt]
    apply update_id
    intro v _
    cases v <;> simp [liftMap, ih]

theorem processEntry_eq (p : List Key) (st : MergeState) (acc : Values) (k : Key)
    (v2 : Value) (hg : getAt st.res p = some acc) (hc : clashesAt (index acc k) v2 = false)
    (hcopy : ∀ m1, index acc k = some (Value.map m1) → copyMap m1 = m1) :
    processEntry p st k v2
      = some { res := modifyAt (fun a => assign a k (shallowVal (index acc k) v2)) st.res p,
               queue := st.queue ++ childPairs p (childOf (index acc k) k v2) } := by
  unfold processEntry
  rw [hg]
  show (match index acc k with
    | some v1 => _
    | none => _) = _
  cases h1 : index acc k with
  | none => simp [shallowVal, childOf, childPairs]
  | some v1 =>
    rw [h1] at hc
    cases v1 <;> cases v2 <;>
      simp [typeOf, asMap, asSlice, shallowVal, childOf, childPairs, clashesAt] at hc ⊢
    rename_i m1 m2
    rw [hcopy m1 h1]


theorem clashes_cons (A : Values) (k : Key) (v2 : Value) (rest : Values) :
    clashes A ((k, v2) :: rest) = false ↔
      clashesAt (index A k) v2 = false ∧ clashes A rest = false := by
  simp [clashes]

theorem processPair_eq (p : List Key) (A0 : Values) (hvA : validMap A0 = true) :
    ∀ (B : Values) (st : MergeState) (acc : Values), getAt st.res p = some acc →
      (∀ k, k ∈ keys B → index acc k = index A0 k) → (keys B).Nodup →
      clashes A0 B = false →
      processPair p B st
        = some { res := modifyAt (fun _ => shallowInto A0 acc B) st.res p,
                 queue := st.queue ++ childPairs p (localChildren A0 B) } := by
  intro B
  induction B with
  | nil =>
    intro st acc hg _ _ _
    have e : modifyAt (fun _ => acc) st.res p = st.res := by
      have h1 := modifyAt_congr (fun _ => acc) (fun a => a) p st.res acc hg rfl
      rw [h1, modifyAt_id]
    simp [processPair, shallowInto, localChildren, childPairs, e]
  | cons e rest ih =>
    intro st acc hg hidx hn hcl
    obtain ⟨k, v2⟩ := e
    have hk : keys ((k, v2) :: rest) = k :: keys rest := rfl
    rw [hk, List.nodup_cons] at hn
    rw [hk] at hidx
    obtain ⟨hc1, hc2⟩ := (clashes_cons A0 k v2 rest).1 hcl
    have hik := hidx k (List.mem_cons_self k _)
    have hcopy : ∀ m1, index acc k = some (Value.map m1) → copyMap m1 = m1 := by
      intro m1 hm1
      rw [hik] at hm1
      have hv := validMap_index A0 k _ hvA hm1
      exact copyMap_eq m1 (validMap_nodup m1 (by simpa [validValue] using hv))
    have he := processEntry_eq p st acc k v2 hg (by rw [hik]; exact hc1) hcopy
    rw [hik] at he
    simp only [processPair, he]
    have hg1 : getAt (modifyAt (fun a => assign a k (shallowVal (index A0 k) v2)) st.res p) p
        = some (assign acc k (shallowVal (index A0 k) v2)) := by
      rw [getAt_modifyAt, hg]; rfl
    have hidx1 : ∀ k1, k1 ∈ keys rest →
        index (assign acc k (shallowVal (index A0 k) v2)) k1 = index A0 k1 := by
      intro k1 hk1
      have hne : k ≠ k1 := by
        rintro rfl
        exact hn.1 hk1
      rw [index_assign, if_neg hne]
      exact hidx k1 (List.mem_cons_of_mem k hk1)
    rw [ih _ _ hg1 hidx1 hn.2 hc2]
    simp only [modifyAt_modifyAt, shallowInto, localChildren, childPairs, List.map_append,
      List.append_assoc]


/-! ### The reference merge is the first pass followed by the merges of the children -/

theorem update_shallowInto (A : Values) (k : Key) (g : Value → Value) :
    ∀ (rest acc : Values), k ∉ keys rest →
      update (shallowInto A acc rest) k g = shallowInto A (update acc k g) rest := by
  intro rest
  induction rest with
  | nil => intro acc _; rfl
  | cons e rest ih =>
    intro acc hk
    obtain ⟨k1, v⟩ := e
    have hk1 : keys ((k1, v) :: rest) = k1 :: keys rest := rfl
    rw [hk1, List.mem_cons, not_or] at hk
    simp only [shallowInto]
    rw [ih _ hk.2, update_assign_comm _ _ _ _ _ hk.1]

theorem applyLocal_cons (c : Key × Values) (chs : List (Key × Values)) (m : Values) :
    applyLocal (c :: chs) m = applyLocal chs (update m c.1 (deepAt c.2)) := rfl

theorem mergeInto_eq_applyLocal (A : Values) :
    ∀ (B acc : Values), (keys B).Nodup →
      mergeInto A acc B = applyLocal (localChildren A B) (shallowInto A acc B) := by
  intro B
  induction B with
  | nil => intro acc _; simp [mergeInto, localChildren, shallowInto, applyLocal]
  | cons e rest ih =>
    intro acc hn
    obtain ⟨k, v2⟩ := e
    have hk : keys ((k, v2) :: rest) = k :: keys rest := rfl
    rw [hk, List.nodup_cons] at hn
    simp only [mergeInto, localChildren, shallowInto]
    rw [ih _ hn.2]
    cases h1 : index A k with
    | none => simp [combineRef, shallowVal, childOf]
    | some v1 =>
      cases v1 <;> cases v2 <;> simp [combineRef, shallowVal, childOf]
      rename_i m1 m2
      rw [applyLocal_cons, update_shallowInto A k _ rest _ hn.1, update_assign_same]
      simp [deepAt, liftMap]

theorem pendingMod_child (p : List Key) (k : Key) (m2 : Values) (F : Values → Values)
    (r : Values) :
    pendingMod { A := p ++ [k], B := m2 } (modifyAt F r p)
      = modifyAt (fun a => update (F a) k (deepAt m2)) r p := by
  simp only [pendingMod]
  rw [modifyAt_append, modifyAt_modifyAt]
  rfl

theorem pending_children (p : List Key) (chs : List (Key × Values)) :
    ∀ (F : Values → Values) (r : Values),
      pending (modifyAt F r p) (childPairs p chs)
        = modifyAt (fun a => applyLocal chs (F a)) r p := by
  induction chs with
  | nil => intro F r; rfl
  | cons c chs ih =>
    intro F r
    have e : pending (modifyAt F r p) (childPairs p (c :: chs))
        = pending (pendingMod { A := p ++ [c.1], B := c.2 } (modifyAt F r p))
            (childPairs p chs) := rfl
    rw [e, pendingMod_child, ih]
    rfl

theorem pending_append (r : Values) (q1 q2 : List mergeValuesPair) :
    pending r (q1 ++ q2) = pending (pending r q1) q2 := by
  simp [pending, List.foldl_append]

theorem pendingMod_comm (x y : mergeValuesPair) (h : Diverge x.A y.A) (r : Values) :
    pendingMod y (pendingMod x r) = pendingMod x (pendingMod y r) :=
  modifyAt_comm _ _ x.A y.A h r

theorem pendingMod_pending (x : mergeValuesPair) (q : List mergeValuesPair)
    (h : ∀ y, y ∈ q → Diverge x.A y.A) :
    ∀ r : Values, pending (pendingMod x r) q = pendingMod x (pending r q) := by
  induction q with
  | nil => intro r; rfl
  | cons y ys ih =>
    intro r
    have e1 : pending (pendingMod x r) (y :: ys) = pending (pendingMod y (pendingMod x r)) ys :=
      rfl
    have e2 : pending r (y :: ys) = pending (pendingMod y r) ys := rfl
    rw [e1, e2, pendingMod_comm x y (h y (List.mem_cons_self y ys)),
      ih (fun z hz => h z (List.mem_cons_of_mem y hz))]

theorem pending_comm (q1 q2 : List mergeValuesPair)
    (h : ∀ x, x ∈ q1 → ∀ y, y ∈ q2 → Diverge x.A y.A) :
    ∀ r : Values, pending (pending r q1) q2 = pending (pending r q2) q1 := by
  induction q1 with
  | nil => intro r; rfl
  | cons x xs ih =>
    intro r
    have e1 : pending r (x :: xs) = pending (pendingMod x r) xs := rfl
    have e2 : pending (pending r q2) (x :: xs) = pending (pendingMod x (pending r q2)) xs := rfl
    rw [e1, e2, ih (fun z hz => h z (List.mem_cons_of_mem x hz)),
      pendingMod_pending x q2 (h x (List.mem_cons_self x xs))]


/-! ### The children of a pair -/

theorem mem_localChildren (A : Values) (k : Key) (m2 : Values) :
    ∀ B : Values, (k, m2) ∈ localChildren A B →
      (∃ m1, index A k = some (Value.map m1)) ∧ (k, Value.map m2) ∈ B := by
  intro B
  induction B with
  | nil => intro h; simp [localChildren] at h
  | cons e rest ih =>
    intro h
    obtain ⟨k1, v2⟩ := e
    simp only [localChildren, List.mem_append] at h
    rcases h with h | h
    · cases h1 : index A k1 with
      | none => simp [h1, childOf] at h
      | some v1 =>
        rw [h1] at h
        cases v1 <;> cases v2 <;> simp [childOf] at h
        obtain ⟨rfl, rfl⟩ := h
        exact ⟨⟨_, h1⟩, List.mem_cons_self _ _⟩
    · obtain ⟨h1, h2⟩ := ih h
      exact ⟨h1, List.mem_cons_of_mem _ h2⟩

theorem keys_localChildren_sublist (A : Values) :
    ∀ B : Values, List.Sublist ((localChildren A B).map Prod.fst) (keys B) := by
  intro B
  induction B with
  | nil => simp [localChildren, keys]
  | cons e rest ih =>
    obtain ⟨k1, v2⟩ := e
    have hk : keys ((k1, v2) :: rest) = k1 :: keys rest := rfl
    rw [hk]
    simp only [localChildren, List.map_append]
    cases h1 : index A k1 with
    | none => simpa [childOf] using List.Sublist.cons k1 ih
    | some v1 =>
      cases v1 <;> cases v2 <;>
        first
        | simpa [childOf] using List.Sublist.cons k1 ih
        | simpa [childOf] using ih

theorem validMap_mem (B : Values) (k : Key) (v : Value) (h : validMap B = true)
    (hm : (k, v) ∈ B) : validValue v = true := by
  induction B with
  | nil => simp at hm
  | cons e rest ih =>
    obtain ⟨k0, v0⟩ := e
    obtain ⟨hv, _, hr⟩ := (validMap_cons k0 v0 rest).1 h
    rcases List.mem_cons.1 hm with h1 | h1
    · simp only [Prod.mk.injEq] at h1
      rw [h1.2]; exact hv
    · exact ih hr h1

theorem clashes_mem (A B : Values) (k : Key) (v : Value) (h : clashes A B = false)
    (hm : (k, v) ∈ B) : clashesAt (index A k) v = false := by
  induction B with
  | nil => simp at hm
  | cons e rest ih =>
    obtain ⟨k0, v0⟩ := e
    obtain ⟨h1, h2⟩ := (clashes_cons A k0 v0 rest).1 h
    rcases List.mem_cons.1 hm with h3 | h3
    · simp only [Prod.mk.injEq] at h3
      rw [h3.1, h3.2]; exact h1
    · exact ih h2 h3

theorem mem_keys_of_mem (B : Values) (k : Key) (v : Value) (h : (k, v) ∈ B) : k ∈ keys B :=
  List.mem_map.2 ⟨(k, v), h, rfl⟩

theorem index_shallowInto_of_not_mem (A : Values) (k : Key) :
    ∀ (rest acc : Values), k ∉ keys rest → index (shallowInto A acc rest) k = index acc k := by
  intro rest
  induction rest with
  | nil => intro acc _; rfl
  | cons e rest ih =>
    intro acc hk
    obtain ⟨k1, v⟩ := e
    have hk1 : keys ((k1, v) :: rest) = k1 :: keys rest := rfl
    rw [hk1, List.mem_cons, not_or] at hk
    simp only [shallowInto]
    rw [ih _ hk.2, index_assign, if_neg (Ne.symm hk.1)]

theorem index_shallowInto (A : Values) (k : Key) (v2 : Value) :
    ∀ (B acc : Values), (keys B).Nodup → (k, v2) ∈ B →
      index (shallowInto A acc B) k = some (shallowVal (index A k) v2) := by
  intro B
  induction B with
  | nil => intro acc _ h; simp at h
  | cons e rest ih =>
    intro acc hn hm
    obtain ⟨k0, v0⟩ := e
    have hk : keys ((k0, v0) :: rest) = k0 :: keys rest := rfl
    rw [hk, List.nodup_cons] at hn
    simp only [shallowInto]
    rcases List.mem_cons.1 hm with h1 | h1
    · simp only [Prod.mk.injEq] at h1
      obtain ⟨rfl, rfl⟩ := h1
      rw [index_shallowInto_of_not_mem A k rest _ hn.1, index_assign, if_pos rfl]
    · exact ih _ hn.2 h1


/-! ### The measure of the loop -/

theorem queueWeight_append (q1 q2 : List mergeValuesPair) :
    queueWeight (q1 ++ q2) = queueWeight q1 + queueWeight q2 := by
  simp [queueWeight]

theorem weight_children (p : List Key) (A : Values) :
    ∀ B : Values, queueWeight (childPairs p (localChildren A B)) + 1 ≤ weight B := by
  intro B
  induction B with
  | nil => simp [localChildren, childPairs, queueWeight, weight]
  | cons e rest ih =>
    obtain ⟨k, v2⟩ := e
    have e1 : childPairs p (localChildren A ((k, v2) :: rest))
        = childPairs p (childOf (index A k) k v2) ++ childPairs p (localChildren A rest) := by
      simp [localChildren, childPairs]
    have e2 : queueWeight (childPairs p (childOf (index A k) k v2)) ≤ weightOf v2 := by
      cases h1 : index A k with
      | none => simp [childOf, childPairs, queueWeight]
      | some v1 =>
        cases v1 <;> cases v2 <;> simp [childOf, childPairs, queueWeight, weightOf]
    rw [e1, queueWeight_append]
    simp only [weight]
    omega

/-! ### Paths that part -/

theorem Diverge.symm {p q : List Key} (h : Diverge p q) : Diverge q p := by
  obtain ⟨c, k1, k2, t1, t2, hp, hq, hne⟩ := h
  exact ⟨c, k2, k1, t2, t1, hq, hp, Ne.symm hne⟩

theorem Diverge.extend {p q : List Key} (h : Diverge p q) (k : Key) :
    Diverge (p ++ [k]) q := by
  obtain ⟨c, k1, k2, t1, t2, hp, hq, hne⟩ := h
  exact ⟨c, k1, k2, t1 ++ [k], t2, by simp [hp], hq, hne⟩

theorem diverge_children (p : List Key) (k1 k2 : Key) (h : k1 ≠ k2) :
    Diverge (p ++ [k1]) (p ++ [k2]) :=
  ⟨p, k1, k2, [], [], rfl, rfl, h⟩

theorem pairwise_childPairs (p : List Key) (chs : List (Key × Values))
    (h : (chs.map Prod.fst).Nodup) :
    List.Pairwise (fun x y : mergeValuesPair => Diverge x.A y.A) (childPairs p chs) := by
  unfold childPairs
  rw [List.pairwise_map]
  have h1 : List.Pairwise (fun c d : Key × Values => c.1 ≠ d.1) chs := by
    simpa [List.Nodup, List.pairwise_map] using h
  exact h1.imp (fun hne => diverge_children p _ _ hne)


/-! ### The loop -/

theorem loop_step (res : Values) (pair : mergeValuesPair) (rest : List mergeValuesPair)
    (h : QueueOk res (pair :: rest)) :
    ∃ st1, processPair pair.A pair.B { res := res, queue := rest } = some st1
      ∧ QueueOk st1.res st1.queue
      ∧ queueWeight st1.queue + 1 ≤ queueWeight (pair :: rest)
      ∧ pending st1.res st1.queue = pending res (pair :: rest) := by
  obtain ⟨hpw, hall⟩ := h
  obtain ⟨a0, hg, hva, hvb, hcl⟩ := hall pair (List.mem_cons_self _ _)
  rw [List.pairwise_cons] at hpw
  obtain ⟨hhead, hrest⟩ := hpw
  have hn := validMap_nodup pair.B hvb
  have hpp := processPair_eq pair.A a0 hva pair.B { res := res, queue := rest } a0 hg
    (fun _ _ => rfl) hn hcl
  refine ⟨_, hpp, ⟨?_, ?_⟩, ?_, ?_⟩
  · -- pairwise
    show List.Pairwise _ (rest ++ childPairs pair.A (localChildren a0 pair.B))
    rw [List.pairwise_append]
    refine ⟨hrest, pairwise_childPairs _ _
      ((keys_localChildren_sublist a0 pair.B).nodup hn), ?_⟩
    intro x hx y hy
    obtain ⟨c, _, rfl⟩ := List.mem_map.1 hy
    exact ((hhead x hx).extend c.1).symm
  · -- every pair has its map
    intro pr hpr
    have hpr1 : pr ∈ rest ++ childPairs pair.A (localChildren a0 pair.B) := hpr
    show ∃ a, getAt (modifyAt (fun _ => shallowInto a0 a0 pair.B) res pair.A) pr.A = some a ∧ _
    rcases List.mem_append.1 hpr1 with h1 | h1
    · obtain ⟨a, ha, hrest1⟩ := hall pr (List.mem_cons_of_mem _ h1)
      exact ⟨a, by rw [getAt_modifyAt_diverge _ _ _ (hhead pr h1)]; exact ha, hrest1⟩
    · obtain ⟨c, hc, rfl⟩ := List.mem_map.1 h1
      obtain ⟨k, m2⟩ := c
      obtain ⟨⟨m1, hm1⟩, hmem⟩ := mem_localChildren a0 k m2 pair.B hc
      refine ⟨m1, ?_, ?_, ?_, ?_⟩
      · show getAt _ (pair.A ++ [k]) = some m1
        rw [getAt_append, getAt_modifyAt, hg]
        simp [getAt, index_shallowInto a0 k (Value.map m2) pair.B a0 hn hmem, hm1, shallowVal]
      · simpa [validValue] using validMap_index a0 k _ hva hm1
      · simpa [validValue] using validMap_mem pair.B k _ hvb hmem
      · have := clashes_mem a0 pair.B k _ hcl hmem
        rw [hm1] at this
        simpa [clashesAt] using this
  · -- measure
    show queueWeight (rest ++ childPairs pair.A (localChildren a0 pair.B)) + 1 ≤ _
    have hw := weight_children pair.A a0 pair.B
    have e : queueWeight (pair :: rest) = weight pair.B + queueWeight rest := by
      simp [queueWeight]
    rw [queueWeight_append, e]
    omega
  · -- pending work
    show pending (modifyAt (fun _ => shallowInto a0 a0 pair.B) res pair.A)
        (rest ++ childPairs pair.A (localChildren a0 pair.B)) = pending res (pair :: rest)
    have e1 : pending res (pair :: rest) = pending (pendingMod pair res) rest := rfl
    have e2 : pendingMod pair res
        = pending (modifyAt (fun _ => shallowInto a0 a0 pair.B) res pair.A)
            (childPairs pair.A (localChildren a0 pair.B)) := by
      rw [pending_children]
      unfold pendingMod
      apply modifyAt_congr _ _ _ _ a0 hg
      exact mergeInto_eq_applyLocal a0 pair.B a0 hn
    rw [e1, e2, pending_append]
    apply pending_comm
    intro x hx y hy
    obtain ⟨c, _, rfl⟩ := List.mem_map.1 hy
    exact ((hhead x hx).extend c.1).symm

theorem mergeLoop_eq :
    ∀ (fuel : Nat) (st : MergeState), QueueOk st.res st.queue → queueWeight st.queue < fuel →
      mergeLoop fuel st = Outcome.ok (pending st.res st.queue) := by
  intro fuel
  induction fuel with
  | zero => intro st _ h; omega
  | succ fuel ih =>
    intro st hok hw
    obtain ⟨res, queue⟩ := st
    cases queue with
    | nil => rfl
    | cons pair rest =>
      obtain ⟨st1, h1, h2, h3, h4⟩ := loop_step res pair rest hok
      simp only [mergeLoop, h1]
      rw [ih st1 h2 (by simp only at hw; omega), h4]

theorem mergeTwoValues_eq_mergeRef (fuel : Nat) (A B : Values) (hA : validMap A = true)
    (hB : validMap B = true) (hc : clashes A B = false) (hf : weight B < fuel) :
    mergeTwoValues fuel A B = Outcome.ok (mergeRef A B) := by
  unfold mergeTwoValues
  rw [copyMap_eq A (validMap_nodup A hA)]
  rw [mergeLoop_eq fuel _ ?_ ?_]
  · rfl
  · refine ⟨by simp, ?_⟩
    intro pr hpr
    simp only [List.mem_singleton] at hpr
    subst hpr
    exact ⟨A, rfl, hA, hB, hc⟩
  · simpa [queueWeight] using hf

/-! ### The reference merge, key by key -/

theorem index_mergeInto (A : Values) (k : Key) :
    ∀ (B acc : Values), (keys B).Nodup →
      index (mergeInto A acc B) k
        = match index B k with
          | none => index acc k
          | some v2 => some (combineRef (index A k) v2) := by
  intro B
  induction B with
  | nil => intro acc _; rfl
  | cons e rest ih =>
    intro acc hn
    obtain ⟨k0, v0⟩ := e
    have hk : keys ((k0, v0) :: rest) = k0 :: keys rest := rfl
    rw [hk, List.nodup_cons] at hn
    simp only [mergeInto]
    rw [ih _ hn.2]
    by_cases h0 : k0 = k
    · subst h0
      simp [index, index_of_not_mem rest k0 hn.1, index_assign]
    · simp [index, h0, index_assign]

theorem index_eq_none_iff (m : Values) (k : Key) : index m k = none ↔ k ∉ keys m := by
  induction m with
  | nil => simp [index, keys]
  | cons e rest ih =>
    obtain ⟨k0, v0⟩ := e
    have hk : keys ((k0, v0) :: rest) = k0 :: keys rest := rfl
    rw [hk]
    by_cases h0 : k0 = k
    · subst h0
      simp [index]
    · simp [index, h0, ih, Ne.symm h0]

theorem MergeValues_nil (fuel : Nat) : MergeValues fuel [] = Outcome.ok [] := rfl

theorem MergeValues_concat (fuel : Nat) (ValuesArr : List Values) (values : Values) :
    MergeValues fuel (ValuesArr ++ [values])
      = match MergeValues fuel ValuesArr with
        | Outcome.ok r => mergeTwoValues fuel r values
        | other => other := by
  simp [MergeValues, List.foldl_append]

/-! ### The work queue against the reference -/

/-- Outside the nil clash the work queue computes the reference merge.  For valid maps
`A` and `B` in which no key reached by the merge holds nil in both, and any bound above
the number of maps of `B`, `mergeTwoValues` returns `mergeRef A B`.  The keys of the
result are those of `A` and of `B`; a key that `B` lacks keeps the value of `A`, and a
key of `B` gets `combineRef`: the recursive merge for two maps, the elements of `A`
followed by those of `B` for two lists, the value of `B` otherwise. -/
theorem mergeTwoValues_refines_mergeRef (fuel : Nat) (A B : Values)
    (hA : validMap A = true) (hB : validMap B = true) (hc : clashes A B = false)
    (hf : weight B < fuel) :
    mergeTwoValues fuel A B = Outcome.ok (mergeRef A B)
      ∧ (∀ k, k ∈ keys (mergeRef A B) ↔ k ∈ keys A ∨ k ∈ keys B)
      ∧ (∀ k, index B k = none → index (mergeRef A B) k = index A k)
      ∧ (∀ k v2, index B k = some v2 → index A k = none → index (mergeRef A B) k = some v2)
      ∧ (∀ k m1 m2, index A k = some (Value.map m1) → index B k = some (Value.map m2) →
          index (mergeRef A B) k = some (Value.map (mergeRef m1 m2)))
      ∧ (∀ k xs1 xs2, index A k = some (Value.list xs1) → index B k = some (Value.list xs2) →
          index (mergeRef A B) k = some (Value.list (xs1 ++ xs2)))
      ∧ (∀ k v1 v2, index A k = some v1 → index B k = some v2 →
          (asMap v1 = none ∨ asMap v2 = none) → (asSlice v1 = none ∨ asSlice v2 = none) →
          index (mergeRef A B) k = some v2) := by
  have hn := validMap_nodup B hB
  have hi : ∀ k, index (mergeRef A B) k
      = match index B k with
        | none => index A k
        | some v2 => some (combineRef (index A k) v2) :=
    fun k => index_mergeInto A k B A hn
  refine ⟨mergeTwoValues_eq_mergeRef fuel A B hA hB hc hf, ?_, ?_, ?_, ?_, ?_, ?_⟩
  · intro k
    have h1 := index_eq_none_iff (mergeRef A B) k
    have h2 := index_eq_none_iff A k
    have h3 := index_eq_none_iff B k
    rw [hi k] at h1
    cases hb : index B k with
    | none =>
      rw [hb] at h1 h3
      simp only [true_iff] at h3
      constructor
      · intro hk
        by_contra hcon
        rw [not_or] at hcon
        exact (h1.1 (h2.2 hcon.1)) hk
      · intro hk
        by_contra hcon
        rcases hk with hk | hk
        · exact (h2.1 (h1.2 hcon)) hk
        · exact h3 hk
    | some v2 =>
      rw [hb] at h1 h3
      simp only [reduceCtorEq, false_iff, not_not] at h1 h3
      exact ⟨fun _ => Or.inr h3, fun _ => h1⟩
  · intro k hb
    rw [hi k, hb]
  · intro k v2 hb ha
    rw [hi k, hb, ha]
    simp [combineRef]
  · intro k m1 m2 ha hb
    rw [hi k, hb, ha]
    simp [combineRef, mergeRef]
  · intro k xs1 xs2 ha hb
    rw [hi k, hb, ha]
    simp [combineRef]
  · intro k v1 v2 ha hb hm hs
    rw [hi k, hb, ha]
    cases v1 <;> cases v2 <;> simp [combineRef, asMap, asSlice] at hm hs ⊢

/-- The refinement at `exampleA` and `exampleB`: a nested map, two lists and a changed
scalar, with a bound of five rounds. -/
theorem mergeTwoValues_refines_mergeRef_witness :
    mergeTwoValues 5 exampleA exampleB
      = Outcome.ok
          [("a", Value.str "z"),
           ("m", Value.map [("x", Value.int 1),
              ("l", Value.list [Value.int 1, Value.int 2]), ("y", Value.str "s")]),
           ("n", Value.null),
           ("b", Value.bool true)] :=
  (mergeTwoValues_refines_mergeRef 5 exampleA exampleB (by decide) (by decide) (by decide)
    (by decide)).1

/-- C20: the work queue does not compute the reference merge where a key holds nil in
both maps.  For `A = B = {k: nil}` the reference merge returns `{k: nil}` (the value of
`B` wins), while `mergeTwoValues` panics, whatever the bound: both types are the nil
`reflect.Type`, they compare equal, and `v1Type.Kind()` is called on nil. -/
theorem mergeTwoValues_panics_on_nil_pair (fuel : Nat) :
    mergeTwoValues (fuel + 1) nullMap nullMap = Outcome.panic
      ∧ mergeRef nullMap nullMap = nullMap
      ∧ validMap nullMap = true
      ∧ clashes nullMap nullMap = true :=
  ⟨rfl, rfl, rfl, rfl⟩

end merge_values

/-! ## Claims about the kube event hooks controller -/

namespace kube_event

/-- C22: `HandleEvent` leaves the controller unchanged.  It returns an error and no task
list exactly when the `ConfigId` of the event is a key of neither `ModuleHooks` nor
`GlobalHooks`.  Otherwise it returns one task, named by the `HookName` of the registered
descriptor, with binding `KubeEvents`: a `ModuleHookRun` when the id is a key of
`ModuleHooks` (also when it is a key of both maps), a `GlobalHookRun` when it is a key of
`GlobalHooks` only; the binding context of the task has one record per event of the kube
event, in order. -/
theorem handle_event_result (kubeEventsBinding : String)
    (obj : MainKubeEventsHooksController) (kubeEvent : KubeEvent) :
    (HandleEvent kubeEventsBinding obj kubeEvent).2 = obj
      ∧ ((∃ msg, (HandleEvent kubeEventsBinding obj kubeEvent).1 = Except.error msg)
          ↔ (mapGet obj.ModuleHooks kubeEvent.ConfigId = none
              ∧ mapGet obj.GlobalHooks kubeEvent.ConfigId = none))
      ∧ (∀ desc, mapGet obj.ModuleHooks kubeEvent.ConfigId = some desc →
          (HandleEvent kubeEventsBinding obj kubeEvent).1
            = Except.ok
                [{ Kind := Operator.TaskType.ModuleHookRun,
                   Name := desc.HookName,
                   Binding := some Operator.BindingType.KubeEvents,
                   BindingContext := kubeEvent.Events.map (fun kEvent =>
                     { Binding := if desc.Name = "" then kubeEventsBinding else desc.Name,
                       ResourceEvent := kEvent,
                       ResourceNamespace := kubeEvent.Namespace,
                       ResourceKind := kubeEvent.Kind,
                       ResourceName := kubeEvent.Name }),
                   AllowFailure := desc.Config.AllowFailure,
                   FailureCount := 0 }])
      ∧ (∀ desc, mapGet obj.ModuleHooks kubeEvent.ConfigId = none →
          mapGet obj.GlobalHooks kubeEvent.ConfigId = some desc →
          (HandleEvent kubeEventsBinding obj kubeEvent).1
            = Except.ok
                [{ Kind := Operator.TaskType.GlobalHookRun,
                   Name := desc.HookName,
                   Binding := some Operator.BindingType.KubeEvents,
                   BindingContext := kubeEvent.Events.map (fun kEvent =>
                     { Binding := if desc.Name = "" then kubeEventsBinding else desc.Name,
                       ResourceEvent := kEvent,
                       ResourceNamespace := kubeEvent.Namespace,
                       ResourceKind := kubeEvent.Kind,
                       ResourceName := kubeEvent.Name }),
                   AllowFailure := desc.Config.AllowFailure,
                   FailureCount := 0 }]) := by
  refine ⟨?_, ?_, ?_, ?_⟩
  · unfold HandleEvent
    cases mapGet obj.ModuleHooks kubeEvent.ConfigId with
    | some d => rfl
    | none =>
      cases mapGet obj.GlobalHooks kubeEvent.ConfigId with
      | some d => rfl
      | none => rfl
  · unfold HandleEvent
    cases mapGet obj.ModuleHooks kubeEvent.ConfigId with
    | some d => simp
    | none =>
      cases mapGet obj.GlobalHooks kubeEvent.ConfigId with
      | some d => simp
      | none => simp
  · intro desc h
    unfold HandleEvent
    rw [h]
    rfl
  · intro desc h1 h2
    unfold HandleEvent
    rw [h1, h2]
    rfl

/-- Witness for C22: the id `id0` is a key of both maps of `modEnabled`; the task is the
`ModuleHookRun` of hook `h1`, with two records under the binding name `first`. -/
theorem handle_event_result_witness :
    (HandleEvent "onKubernetesEvent" modEnabled.obj podEvent).1
      = Except.ok
          [{ Kind := Operator.TaskType.ModuleHookRun,
             Name := "h1",
             Binding := some Operator.BindingType.KubeEvents,
             BindingContext :=
               [{ Binding := "first", ResourceEvent := "add", ResourceNamespace := "default",
                  ResourceKind := "Pod", ResourceName := "pod-0" },
                { Binding := "first", ResourceEvent := "update", ResourceNamespace := "default",
                  ResourceKind := "Pod", ResourceName := "pod-0" }],
             AllowFailure := false,
             FailureCount := 0 }] :=
  (handle_event_result "onKubernetesEvent" modEnabled.obj podEvent).2.2.1 descFirst rfl

/-! ### What the loops of the controller leave alone -/

theorem register_EnabledModules (target : Target) (obj : MainKubeEventsHooksController)
    (configId : String) (desc : KubeEventHook) :
    (register target obj configId desc).EnabledModules = obj.EnabledModules := by
  cases target <;> rfl

theorem runDescriptors_EnabledModules (env : Managers) (target : Target) :
    ∀ (descs : List KubeEventHook) (w : World),
      (runDescriptors env target descs w).2.obj.EnabledModules = w.obj.EnabledModules := by
  intro descs
  induction descs with
  | nil => intro w; rfl
  | cons desc rest ih =>
    intro w
    unfold runDescriptors
    cases env.Run w.calls (runArgs desc) with
    | error err => rfl
    | ok configId =>
      simp only []
      rw [ih]
      exact register_EnabledModules target w.obj configId desc

theorem runHooks_EnabledModules (env : Managers) (target : Target) (getHook : String → Hook) :
    ∀ (names : List String) (w : World),
      (runHooks env target getHook names w).2.obj.EnabledModules = w.obj.EnabledModules := by
  intro names
  induction names with
  | nil => intro w; rfl
  | cons hookName rest ih =>
    intro w
    unfold runHooks
    have h := runDescriptors_EnabledModules env target
      (MakeKubeEventHookDescriptors (getHook hookName) (getHook hookName).OnKubernetesEvent) w
    cases hr : runDescriptors env target
        (MakeKubeEventHookDescriptors (getHook hookName) (getHook hookName).OnKubernetesEvent)
        w with
    | mk e w1 =>
      rw [hr] at h
      simp only [hr]
      cases e with
      | some err => exact h
      | none =>
        simp only []
        rw [ih]
        exact h

theorem stopHooks_EnabledModules (env : Managers) (names : List String) :
    ∀ (entries : HookMap) (w : World),
      (stopHooks env names entries w).2.obj.EnabledModules = w.obj.EnabledModules := by
  intro entries
  induction entries with
  | nil => intro w; rfl
  | cons e rest ih =>
    intro w
    obtain ⟨configId, desc⟩ := e
    unfold stopHooks
    by_cases hm : desc.HookName ∈ names
    · simp only [hm, if_true]
      cases env.Stop w.calls configId with
      | some err => rfl
      | none =>
        simp only []
        rw [ih]
    · simp only [hm, if_false]
      exact ih w

theorem EnableModuleHooks_nodup (env : Managers) (moduleName : String) (w : World)
    (h : w.obj.EnabledModules.Nodup) :
    (EnableModuleHooks env moduleName w).2.obj.EnabledModules.Nodup := by
  unfold EnableModuleHooks
  by_cases hm : moduleName ∈ w.obj.EnabledModules
  · simp only [hm, if_true]
    exact h
  · simp only [hm, if_false]
    cases env.GetModuleHooksInOrder moduleName with
    | error err => exact h
    | ok moduleHooks =>
      simp only []
      have hk := runHooks_EnabledModules env Target.Module env.GetModuleHook moduleHooks w
      cases hr : runHooks env Target.Module env.GetModuleHook moduleHooks w with
      | mk e w1 =>
        rw [hr] at hk
        cases e with
        | some err =>
          simp only []
          rw [hk]; exact h
        | none =>
          simp only []
          rw [hk]
          exact List.Nodup.append h (List.nodup_singleton _) (by simpa using hm)

theorem DisableModuleHooks_nodup (env : Managers) (moduleName : String) (w : World)
    (h : w.obj.EnabledModules.Nodup) :
    (DisableModuleHooks env moduleName w).2.obj.EnabledModules.Nodup := by
  unfold DisableModuleHooks
  by_cases hm : moduleName ∈ w.obj.EnabledModules
  · simp only [hm, if_true]
    cases env.GetModuleHooksInOrder moduleName with
    | error err => exact h.erase moduleName
    | ok names =>
      simp only []
      rw [stopHooks_EnabledModules]
      exact h.erase moduleName
  · simp only [hm, if_false]
    exact h

theorem applyOp_nodup (env : Managers) (op : Op) (w : World)
    (h : w.obj.EnabledModules.Nodup) : (applyOp env op w).2.obj.EnabledModules.Nodup := by
  cases op with
  | EnableGlobalHooks =>
    show (runHooks env Target.Global env.GetGlobalHook env.GetGlobalHooksInOrder
      w).2.obj.EnabledModules.Nodup
    rw [runHooks_EnabledModules]
    exact h
  | EnableModuleHooks moduleName => exact EnableModuleHooks_nodup env moduleName w h
  | DisableModuleHooks moduleName => exact DisableModuleHooks_nodup env moduleName w h

theorem applyOps_nodup :
    ∀ (ops : List (Managers × Op)) (w : World), w.obj.EnabledModules.Nodup →
      (applyOps ops w).obj.EnabledModules.Nodup := by
  intro ops
  induction ops with
  | nil => intro w h; exact h
  | cons x rest ih =>
    intro w h
    obtain ⟨env, op⟩ := x
    exact ih _ (applyOp_nodup env op w h)

/-- C23: `EnabledModules` never holds a module name twice: this is so after every
sequence of `EnableModuleHooks` and `DisableModuleHooks` calls (and `EnableGlobalHooks`
calls) on a new controller, whatever the collaborators answer and whatever the calls
return.  `EnableModuleHooks` for a module that is enabled returns nil, starts no informer
and changes nothing; `DisableModuleHooks` for a module that is not enabled returns nil
and changes nothing. -/
theorem enabled_modules_never_twice (ops : List (Managers × Op)) (env : Managers)
    (moduleName : String) (w : World) :
    (applyOps ops { obj := NewMainKubeEventsHooksController, calls := [] }).obj.EnabledModules.Nodup
      ∧ (moduleName ∈ w.obj.EnabledModules →
          EnableModuleHooks env moduleName w = (none, w))
      ∧ (moduleName ∉ w.obj.EnabledModules →
          DisableModuleHooks env moduleName w = (none, w)) := by
  refine ⟨applyOps_nodup ops _ (by simp [NewMainKubeEventsHooksController]), ?_, ?_⟩
  · intro h
    simp [EnableModuleHooks, h]
  · intro h
    simp [DisableModuleHooks, h]

/-- Witness for C23: enabling the module `mod` again in `modEnabled` changes nothing and
calls no collaborator. -/
theorem enabled_modules_never_twice_witness :
    EnableModuleHooks secondRunFails "mod" modEnabled = (none, modEnabled)
      ∧ DisableModuleHooks secondRunFails "other" modEnabled = (none, modEnabled) :=
  ⟨(enabled_modules_never_twice [] secondRunFails "mod" modEnabled).2.1 (by decide),
    (enabled_modules_never_twice [] secondRunFails "other" modEnabled).2.2 (by decide)⟩

/-- C24, as stated, fails.  With `secondRunFails`, `EnableModuleHooks` on a new controller
returns the error of the second `Run` after the first descriptor was registered:
`ModuleHooks` is no longer empty.  With `listFails`, `DisableModuleHooks` in `modEnabled`
returns the error of `GetModuleHooksInOrder` after the module was taken out of
`EnabledModules`. -/
theorem error_after_partial_change :
    (EnableModuleHooks secondRunFails "mod"
        { obj := NewMainKubeEventsHooksController, calls := [] }).1 = some "run failed"
      ∧ (EnableModuleHooks secondRunFails "mod"
        { obj := NewMainKubeEventsHooksController, calls := [] }).2.obj.ModuleHooks
          = [("id0", descFirst)]
      ∧ NewMainKubeEventsHooksController.ModuleHooks = []
      ∧ (DisableModuleHooks listFails "mod" modEnabled).1 = some "no such module"
      ∧ (DisableModuleHooks listFails "mod" modEnabled).2.obj.EnabledModules = []
      ∧ modEnabled.obj.EnabledModules = ["mod"] := by
  decide

/-- C24, amended: when `EnableModuleHooks` returns an error, `EnabledModules` is the same
as before the call; when the error is that of `GetModuleHooksInOrder`, the whole state is
the same as before and no informer was started.  When `DisableModuleHooks` returns the
error of `GetModuleHooksInOrder`, `ModuleHooks` is the same as before the call. -/
theorem error_keeps_unchanged_parts (env : Managers) (moduleName : String) (w : World)
    (err : String) :
    ((EnableModuleHooks env moduleName w).1 = some err →
        (EnableModuleHooks env moduleName w).2.obj.EnabledModules = w.obj.EnabledModules)
      ∧ (env.GetModuleHooksInOrder moduleName = Except.error err →
          moduleName ∉ w.obj.EnabledModules →
          EnableModuleHooks env moduleName w = (some err, w))
      ∧ (env.GetModuleHooksInOrder moduleName = Except.error err →
          moduleName ∈ w.obj.EnabledModules →
          (DisableModuleHooks env moduleName w).1 = some err
            ∧ (DisableModuleHooks env moduleName w).2.obj.ModuleHooks = w.obj.ModuleHooks
            ∧ (DisableModuleHooks env moduleName w).2.calls = w.calls) := by
  refine ⟨?_, ?_, ?_⟩
  · unfold EnableModuleHooks
    by_cases hm : moduleName ∈ w.obj.EnabledModules
    · simp [hm]
    · simp only [hm, if_false]
      cases env.GetModuleHooksInOrder moduleName with
      | error e => intro _; rfl
      | ok moduleHooks =>
        simp only []
        have hk := runHooks_EnabledModules env Target.Module env.GetModuleHook moduleHooks w
        cases hr : runHooks env Target.Module env.GetModuleHook moduleHooks w with
        | mk e w1 =>
          rw [hr] at hk
          cases e with
          | some e1 => intro _; exact hk
          | none => intro h; simp at h
  · intro hg hm
    simp [EnableModuleHooks, hm, hg]
  · intro hg hm
    simp [DisableModuleHooks, hm, hg]

/-- Witness for C24, amended: with `listFails`, enabling a module on a new controller
returns the error and changes nothing. -/
theorem error_keeps_unchanged_parts_witness :
    EnableModuleHooks listFails "mod" { obj := NewMainKubeEventsHooksController, calls := [] }
      = (some "no such module", { obj := NewMainKubeEventsHooksController, calls := [] }) :=
  (error_keeps_unchanged_parts listFails "mod"
    { obj := NewMainKubeEventsHooksController, calls := [] } "no such module").2.1 rfl
    (by decide)

end kube_event

/-! ## Where the merge of values panics -/

namespace merge_values

theorem processEntry_of_not_nil (p : List Key) (st : MergeState) (acc : Values) (k : Key)
    (v2 : Value) (hg : getAt st.res p = some acc) (hc : nilAt (index acc k) v2 = false)
    (hcopy : ∀ m1, index acc k = some (Value.map m1) → copyMap m1 = m1) :
    processEntry p st k v2
      = some { res := modifyAt (fun a => assign a k (shallowVal (index acc k) v2)) st.res p,
               queue := st.queue ++ childPairs p (childOf (index acc k) k v2) } := by
  unfold processEntry
  rw [hg]
  show (match index acc k with
    | some v1 => _
    | none => _) = _
  cases h1 : index acc k with
  | none => simp [shallowVal, childOf, childPairs]
  | some v1 =>
    rw [h1] at hc
    cases v1 <;> cases v2 <;>
      simp [typeOf, asMap, asSlice, shallowVal, childOf, childPairs, nilAt] at hc ⊢
    rename_i m1 m2
    rw [hcopy m1 h1]

theorem processEntry_of_nil (p : List Key) (st : MergeState) (acc : Values) (k : Key)
    (v2 : Value) (hg : getAt st.res p = some acc) (hc : nilAt (index acc k) v2 = true) :
    processEntry p st k v2 = none := by
  unfold processEntry
  rw [hg]
  show (match index acc k with
    | some v1 => _
    | none => _) = _
  cases h1 : index acc k with
  | none => rw [h1] at hc; simp [nilAt] at hc
  | some v1 =>
    rw [h1] at hc
    cases v1 <;> cases v2 <;> simp [nilAt] at hc
    simp [typeOf]

theorem processPair_outcome (p : List Key) (A0 : Values) (hvA : validMap A0 = true) :
    ∀ (B : Values) (st : MergeState) (acc : Values), getAt st.res p = some acc →
      (∀ k, k ∈ keys B → index acc k = index A0 k) → (keys B).Nodup →
      processPair p B st
        = if nilPair A0 B = true then none
          else some { res := modifyAt (fun _ => shallowInto A0 acc B) st.res p,
                      queue := st.queue ++ childPairs p (localChildren A0 B) } := by
  intro B
  induction B with
  | nil =>
    intro st acc hg _ _
    have e : modifyAt (fun _ => acc) st.res p = st.res := by
      have h1 := modifyAt_congr (fun _ => acc) (fun a => a) p st.res acc hg rfl
      rw [h1, modifyAt_id]
    simp [processPair, shallowInto, localChildren, childPairs, e, nilPair]
  | cons e rest ih =>
    intro st acc hg hidx hn
    obtain ⟨k, v2⟩ := e
    have hk : keys ((k, v2) :: rest) = k :: keys rest := rfl
    rw [hk, List.nodup_cons] at hn
    rw [hk] at hidx
    have hik := hidx k (List.mem_cons_self k _)
    cases hnil : nilAt (index A0 k) v2 with
    | true =>
      have he := processEntry_of_nil p st acc k v2 hg (by rw [hik]; exact hnil)
      simp [processPair, he, nilPair, hnil]
    | false =>
      have hcopy : ∀ m1, index acc k = some (Value.map m1) → copyMap m1 = m1 := by
        intro m1 hm1
        rw [hik] at hm1
        have hv := validMap_index A0 k _ hvA hm1
        exact copyMap_eq m1 (validMap_nodup m1 (by simpa [validValue] using hv))
      have he := processEntry_of_not_nil p st acc k v2 hg (by rw [hik]; exact hnil) hcopy
      rw [hik] at he
      simp only [processPair, he]
      have hg1 : getAt (modifyAt (fun a => assign a k (shallowVal (index A0 k) v2)) st.res p) p
          = some (assign acc k (shallowVal (index A0 k) v2)) := by
        rw [getAt_modifyAt, hg]; rfl
      have hidx1 : ∀ k1, k1 ∈ keys rest →
          index (assign acc k (shallowVal (index A0 k) v2)) k1 = index A0 k1 := by
        intro k1 hk1
        have hne : k ≠ k1 := by
          rintro rfl
          exact hn.1 hk1
        rw [index_assign, if_neg hne]
        exact hidx k1 (List.mem_cons_of_mem k hk1)
      rw [ih _ _ hg1 hidx1 hn.2]
      simp only [modifyAt_modifyAt, shallowInto, localChildren, childPairs, List.map_append,
        List.append_assoc, nilPair, hnil, Bool.false_or]

theorem clashes_split (A : Values) :
    ∀ B : Values, clashes A B = true →
      nilPair A B = true ∨
        ∃ k m1 m2, (k, m2) ∈ localChildren A B ∧ index A k = some (Value.map m1)
          ∧ clashes m1 m2 = true := by
  intro B
  induction B with
  | nil => intro h; simp [clashes] at h
  | cons e rest ih =>
    intro h
    obtain ⟨k, v2⟩ := e
    simp only [clashes, Bool.or_eq_true] at h
    rcases h with h | h
    · cases h1 : index A k with
      | none => rw [h1] at h; simp [clashesAt] at h
      | some v1 =>
        rw [h1] at h
        cases v1 <;> cases v2 <;> simp [clashesAt] at h
        · exact Or.inl (by simp [nilPair, h1, nilAt])
        · rename_i m1 m2
          exact Or.inr ⟨k, m1, m2, by simp [localChildren, h1, childOf], h1, h⟩
    · rcases ih h with h2 | ⟨k1, m1, m2, hm, hi, hc⟩
      · exact Or.inl (by simp [nilPair, h2])
      · exact Or.inr ⟨k1, m1, m2, by simp [localChildren, hm], hi, hc⟩

theorem loop_step_valid (res : Values) (pair : mergeValuesPair)
    (rest : List mergeValuesPair) (a0 : Values) (h : QueueValid res (pair :: rest))
    (hg : getAt res pair.A = some a0) :
    (nilPair a0 pair.B = true →
        processPair pair.A pair.B { res := res, queue := rest } = none)
      ∧ (nilPair a0 pair.B = false →
        ∃ st1, processPair pair.A pair.B { res := res, queue := rest } = some st1
          ∧ st1.queue = rest ++ childPairs pair.A (localChildren a0 pair.B)
          ∧ QueueValid st1.res st1.queue
          ∧ queueWeight st1.queue + 1 ≤ queueWeight (pair :: rest)
          ∧ (∀ pr, pr ∈ rest → getAt st1.res pr.A = getAt res pr.A)
          ∧ (∀ k m1 m2, (k, m2) ∈ localChildren a0 pair.B →
              index a0 k = some (Value.map m1) →
              getAt st1.res (pair.A ++ [k]) = some m1)) := by
  obtain ⟨hpw, hall⟩ := h
  obtain ⟨a1, hg1, hva1, hvb⟩ := hall pair (List.mem_cons_self _ _)
  have ha : a1 = a0 := by
    rw [hg] at hg1
    exact (Option.some.inj hg1).symm
  subst ha
  rw [List.pairwise_cons] at hpw
  obtain ⟨hhead, hrest⟩ := hpw
  have hn := validMap_nodup pair.B hvb
  have hpp := processPair_outcome pair.A a1 hva1 pair.B { res := res, queue := rest } a1 hg
    (fun _ _ => rfl) hn
  constructor
  · intro hnil
    rw [hpp, if_pos hnil]
  · intro hnil
    rw [hpp, if_neg (by simp [hnil])]
    have hchild : ∀ k m1 m2, (k, m2) ∈ localChildren a1 pair.B →
        index a1 k = some (Value.map m1) →
        getAt (modifyAt (fun _ => shallowInto a1 a1 pair.B) res pair.A) (pair.A ++ [k])
          = some m1 := by
      intro k m1 m2 hc hm1
      obtain ⟨_, hmem⟩ := mem_localChildren a1 k m2 pair.B hc
      rw [getAt_append, getAt_modifyAt, hg]
      simp [getAt, index_shallowInto a1 k (Value.map m2) pair.B a1 hn hmem, hm1, shallowVal]
    refine ⟨_, rfl, rfl, ⟨?_, ?_⟩, ?_, ?_, hchild⟩
    · show List.Pairwise _ (rest ++ childPairs pair.A (localChildren a1 pair.B))
      rw [List.pairwise_append]
      refine ⟨hrest, pairwise_childPairs _ _
        ((keys_localChildren_sublist a1 pair.B).nodup hn), ?_⟩
      intro x hx y hy
      obtain ⟨c, _, rfl⟩ := List.mem_map.1 hy
      exact ((hhead x hx).extend c.1).symm
    · intro pr hpr
      have hpr1 : pr ∈ rest ++ childPairs pair.A (localChildren a1 pair.B) := hpr
      show ∃ a, getAt (modifyAt (fun _ => shallowInto a1 a1 pair.B) res pair.A) pr.A = some a ∧ _
      rcases List.mem_append.1 hpr1 with h1 | h1
      · obtain ⟨a, hga, hrest1⟩ := hall pr (List.mem_cons_of_mem _ h1)
        exact ⟨a, by rw [getAt_modifyAt_diverge _ _ _ (hhead pr h1)]; exact hga, hrest1⟩
      · obtain ⟨c, hc, rfl⟩ := List.mem_map.1 h1
        obtain ⟨k, m2⟩ := c
        obtain ⟨⟨m1, hm1⟩, hmem⟩ := mem_localChildren a1 k m2 pair.B hc
        refine ⟨m1, hchild k m1 m2 hc hm1, ?_, ?_⟩
        · simpa [validValue] using validMap_index a1 k _ hva1 hm1
        · simpa [validValue] using validMap_mem pair.B k _ hvb hmem
    · show queueWeight (rest ++ childPairs pair.A (localChildren a1 pair.B)) + 1 ≤ _
      have hw := weight_children pair.A a1 pair.B
      have e : queueWeight (pair :: rest) = weight pair.B + queueWeight rest := by
        simp [queueWeight]
      rw [queueWeight_append, e]
      omega
    · intro pr hpr
      exact getAt_modifyAt_diverge _ _ _ (hhead pr hpr) res

theorem mergeLoop_panics :
    ∀ (fuel : Nat) (st : MergeState), QueueValid st.res st.queue →
      (∃ pr, pr ∈ st.queue ∧ ∃ a, getAt st.res pr.A = some a ∧ clashes a pr.B = true) →
      queueWeight st.queue < fuel → mergeLoop fuel st = Outcome.panic := by
  intro fuel
  induction fuel with
  | zero => intro st _ _ h; omega
  | succ fuel ih =>
    intro st hok hclash hw
    obtain ⟨res, queue⟩ := st
    cases queue with
    | nil =>
      obtain ⟨pr, hpr, _⟩ := hclash
      simp at hpr
    | cons pair rest =>
      obtain ⟨a0, hg, _, _⟩ := hok.2 pair (List.mem_cons_self _ _)
      obtain ⟨hnil1, hnil0⟩ := loop_step_valid res pair rest a0 hok hg
      cases hnp : nilPair a0 pair.B with
      | true => simp only [mergeLoop, hnil1 hnp]
      | false =>
        obtain ⟨st1, h1, hq, h2, h3, h4, h5⟩ := hnil0 hnp
        simp only [mergeLoop, h1]
        apply ih st1 h2 ?_ (by simp only at hw; omega)
        obtain ⟨pr, hpr, a, hga, hcl⟩ := hclash
        rcases List.mem_cons.1 hpr with hp | hp
        · subst hp
          have ha : a = a0 := by
            have hg2 : getAt res pr.A = some a := hga
            rw [hg] at hg2
            exact (Option.some.inj hg2).symm
          subst ha
          rcases clashes_split a pr.B hcl with hn | ⟨k, m1, m2, hm, hi, hc⟩
          · rw [hn] at hnp; simp at hnp
          · refine ⟨{ A := pr.A ++ [k], B := m2 }, ?_, m1, h5 k m1 m2 hm hi, hc⟩
            rw [hq]
            exact List.mem_append_right _ (List.mem_map.2 ⟨(k, m2), hm, rfl⟩)
        · refine ⟨pr, ?_, a, ?_, hcl⟩
          · rw [hq]; exact List.mem_append_left _ hp
          · rw [h4 pr hp]; exact hga

/-- Totality of `mergeTwoValues`, as far as it goes: for valid maps `A` and `B` and any
bound above the number of maps of `B`, the queue loop ends within the bound.  It ends
with the reference merge when no key reached by the merge holds nil in both maps, and
with a panic when some key does. -/
theorem mergeTwoValues_outcome (fuel : Nat) (A B : Values) (hA : validMap A = true)
    (hB : validMap B = true) (hf : weight B < fuel) :
    mergeTwoValues fuel A B
      = if clashes A B = true then Outcome.panic else Outcome.ok (mergeRef A B) := by
  cases hc : clashes A B with
  | false =>
    simp only [Bool.false_eq_true, if_false]
    exact mergeTwoValues_eq_mergeRef fuel A B hA hB hc hf
  | true =>
    simp only [if_true]
    unfold mergeTwoValues
    rw [copyMap_eq A (validMap_nodup A hA)]
    apply mergeLoop_panics
    · refine ⟨by simp, ?_⟩
      intro pr hpr
      simp only [List.mem_singleton] at hpr
      subst hpr
      exact ⟨A, rfl, hA, hB⟩
    · exact ⟨_, List.mem_singleton.2 rfl, A, rfl, hc⟩
    · simpa [queueWeight] using hf

/-- The outcome at `exampleA` and `exampleB`, which share no nil: the merge ends within
five rounds and does not panic. -/
theorem mergeTwoValues_outcome_witness :
    mergeTwoValues 5 exampleA exampleB = Outcome.ok (mergeRef exampleA exampleB) :=
  mergeTwoValues_outcome 5 exampleA exampleB (by decide) (by decide) (by decide)

/-- C21: `mergeTwoValues` is not total.  In `nestedNullA` and `nestedNullB` the key `k` of
the nested map `m` holds nil in both maps; both maps are valid and `B` has two maps, yet
with every bound of two rounds or more the call ends in a panic, in the second round of
the queue loop, and returns no result. -/
theorem mergeTwoValues_panics_on_nested_nil (fuel : Nat) :
    mergeTwoValues (fuel + 2) nestedNullA nestedNullB = Outcome.panic
      ∧ validMap nestedNullA = true ∧ validMap nestedNullB = true
      ∧ weight nestedNullB = 2
      ∧ clashes nestedNullA nestedNullB = true :=
  ⟨rfl, rfl, rfl, rfl, rfl⟩

end merge_values
